import Mathlib

/-!
Verification of the Metroid-Prime-4-Routing-Tool repository (two Python
command-line utilities):

* `tools/normalize_positions.py` — deterministic coordinate-jitter rewrite of
  `"x"`/`"y"` numeric literals inside uid-bearing objects, built on Python
  `decimal.Decimal` with context precision 40 and MD5-derived digit streams.
* `tools/sort_layer_markers.py` — a lexical scanner locating the first
  top-level `[...]` span, best-effort JS-to-JSON cleanup, strict JSON parsing,
  a stable sort of marker objects by `(y, x)`, and an in-place splice rewrite
  with a `.bak` backup.

The embedding translates the source faithfully:

* Python `Decimal` values appearing in the tool are all non-negative and are
  modelled as a coefficient/exponent pair (`Dec`), with context-precision-40
  rounding (`ROUND_HALF_EVEN`) on addition, quantization (which can raise
  `InvalidOperation`, modelled as `none`), and the observed normalization of
  exact division results (trailing zeros stripped).
* MD5 is implemented in full (RFC 1321) over UTF-8 bytes.
* Python `sorted` is stable; it is modelled by `List.insertionSort`, the
  canonical stable sort (extensionally equal to any stable sort).
* JSON numbers are modelled as exact rationals.  Python parses decimal
  literals into IEEE doubles; the exact-rational model agrees with it on all
  comparisons of literals with at most 15 significant digits and is noted as a
  model choice.  `float(...)`/`Decimal(...)` string coercion is modelled on
  the plain decimal grammar (no `inf`/`nan`/underscore/whitespace forms, which
  never occur in the claims).
* All recursion is structural (fuel-based where needed) so every definition
  evaluates by kernel reduction.
-/

/-! ### Character and digit utilities -/

def digitChar (n : Nat) : Char := Char.ofNat (48 + n)

def digitVal (c : Char) : Nat := c.toNat - 48

def isDigitC (c : Char) : Bool := 48 ≤ c.toNat && c.toNat ≤ 57

/-- Numeric value of a big-endian decimal digit string (`int(s)`). -/
def digitsVal (l : List Char) : Nat := l.foldl (fun a c => a * 10 + digitVal c) 0

/-- Value of one hexadecimal character (`int(c, 16)` for `[0-9a-f]`). -/
def hexCharVal (c : Char) : Nat :=
  if 97 ≤ c.toNat then c.toNat - 87
  else if 65 ≤ c.toNat then c.toNat - 55
  else c.toNat - 48

/-- Numeric value of a big-endian hexadecimal string (`int(s, 16)`). -/
def hexVal (l : List Char) : Nat := l.foldl (fun a c => a * 16 + hexCharVal c) 0

/-- Little-endian decimal digits of `n` (fuel-based so that it reduces). -/
def natToRevDigits : Nat → Nat → List Char
  | 0, _ => []
  | f + 1, n => if n < 10 then [digitChar n] else digitChar (n % 10) :: natToRevDigits f (n / 10)

/-- Decimal rendering of a natural number, as Python `str` of an `int`. -/
def natStr (n : Nat) : String := ⟨(natToRevDigits (n + 1) n).reverse⟩

/-- Left-pad a string with zeros to length `k` (decimal formatting helper). -/
def padLeftZeros (k : Nat) (s : String) : String :=
  ⟨List.replicate (k - s.length) '0'⟩ ++ s

/-- Number of trailing `'0'` characters: `len(s) - len(s.rstrip('0'))`. -/
def trailZeros (l : List Char) : Nat := (l.reverse.takeWhile (· = '0')).length

/-- Split a character list at the first `'.'`, as Python `s.split('.', 1)`:
returns the part before the dot and, when a dot exists, the part after it.  -/
def splitFirstDot : List Char → List Char × Option (List Char)
  | [] => ([], none)
  | c :: t =>
    if c = '.' then ([], some t)
    else
      let r := splitFirstDot t
      (c :: r.1, r.2)

/-- `(s * (n // len(s) + 1))[:n]`: repeat a string and truncate to `n`. -/
def repTake (s : String) (n : Nat) : String :=
  ⟨((List.replicate (n / s.length + 1) s.data).flatten).take n⟩

/-! ### Basic lemmas about the digit utilities -/

theorem digitsVal_foldl (l : List Char) : ∀ a : Nat,
    List.foldl (fun a c => a * 10 + digitVal c) a l = a * 10 ^ l.length + digitsVal l := by
  induction l with
  | nil => intro a; simp [digitsVal]
  | cons c t ih =>
    intro a
    have hd : digitsVal (c :: t) = digitVal c * 10 ^ t.length + digitsVal t := by
      show List.foldl _ (0 * 10 + digitVal c) t = _
      rw [ih (0 * 10 + digitVal c)]
      ring_nf
    show List.foldl _ (a * 10 + digitVal c) t = _
    rw [ih (a * 10 + digitVal c), hd]
    simp [List.length_cons]
    ring

theorem digitsVal_append (l₁ l₂ : List Char) :
    digitsVal (l₁ ++ l₂) = digitsVal l₁ * 10 ^ l₂.length + digitsVal l₂ := by
  show List.foldl _ 0 (l₁ ++ l₂) = _
  rw [List.foldl_append]
  exact digitsVal_foldl l₂ _

theorem digitVal_digitChar (n : Nat) (h : n < 10) : digitVal (digitChar n) = n := by
  interval_cases n <;> decide

theorem isDigitC_digitChar (n : Nat) (h : n < 10) : isDigitC (digitChar n) = true := by
  interval_cases n <;> decide

theorem digitChar_ne_dot (n : Nat) (h : n < 10) : digitChar n ≠ '.' := by
  interval_cases n <;> decide

theorem natToRevDigits_one_step (f : Nat) (n : Nat) :
    natToRevDigits (f + 1) n
      = if n < 10 then [digitChar n] else digitChar (n % 10) :: natToRevDigits f (n / 10) :=
  rfl

theorem natToRevDigits_fuel : ∀ n f g, 0 < f → 0 < g → n ≤ f → n ≤ g →
    natToRevDigits f n = natToRevDigits g n := by
  intro n
  induction n using Nat.strong_induction_on with
  | _ n ih =>
    intro f g hf0 hg0 hf hg
    obtain ⟨f', rfl⟩ : ∃ f', f = f' + 1 := ⟨f - 1, by omega⟩
    obtain ⟨g', rfl⟩ : ∃ g', g = g' + 1 := ⟨g - 1, by omega⟩
    by_cases h10 : n < 10
    · rw [natToRevDigits_one_step, natToRevDigits_one_step, if_pos h10, if_pos h10]
    · have hlt : n / 10 < n := Nat.div_lt_self (by omega) (by omega)
      rw [natToRevDigits_one_step, natToRevDigits_one_step, if_neg h10, if_neg h10]
      rw [ih (n / 10) hlt f' g' (by omega) (by omega) (by omega) (by omega)]

theorem natStr_small (n : Nat) (h : n < 10) : (natStr n).data = [digitChar n] := by
  show ((natToRevDigits (n + 1) n).reverse : List Char) = _
  rw [natToRevDigits_one_step, if_pos h]
  rfl

theorem natStr_step (n : Nat) (h : 10 ≤ n) :
    (natStr n).data = (natStr (n / 10)).data ++ [digitChar (n % 10)] := by
  have hlt : n / 10 < n := Nat.div_lt_self (by omega) (by omega)
  show ((natToRevDigits (n + 1) n).reverse : List Char) = (natToRevDigits (n / 10 + 1) (n / 10)).reverse ++ _
  rw [natToRevDigits_one_step, if_neg (by omega)]
  rw [natToRevDigits_fuel (n / 10) n (n / 10 + 1) (by omega) (by omega) (by omega) (by omega)]
  simp

theorem natStr_val : ∀ n, digitsVal (natStr n).data = n := by
  intro n
  induction n using Nat.strong_induction_on with
  | _ n ih =>
    by_cases h10 : n < 10
    · rw [natStr_small n h10]
      simp [digitsVal, digitVal_digitChar n h10]
    · have h : 10 ≤ n := by omega
      have hlt : n / 10 < n := Nat.div_lt_self (by omega) (by omega)
      rw [natStr_step n h, digitsVal_append]
      rw [ih (n / 10) hlt]
      simp [digitsVal, digitVal_digitChar (n % 10) (Nat.mod_lt n (by omega))]
      omega

theorem natStr_digits : ∀ n, ∀ c ∈ (natStr n).data, isDigitC c = true ∧ c ≠ '.' := by
  intro n
  induction n using Nat.strong_induction_on with
  | _ n ih =>
    intro c hc
    by_cases h10 : n < 10
    · rw [natStr_small n h10] at hc
      simp at hc; subst hc
      exact ⟨isDigitC_digitChar n h10, digitChar_ne_dot n h10⟩
    · have h : 10 ≤ n := by omega
      have hlt : n / 10 < n := Nat.div_lt_self (by omega) (by omega)
      rw [natStr_step n h] at hc
      rcases List.mem_append.mp hc with h1 | h1
      · exact ih (n / 10) hlt c h1
      · simp at h1; subst h1
        have hm : n % 10 < 10 := Nat.mod_lt n (by omega)
        exact ⟨isDigitC_digitChar _ hm, digitChar_ne_dot _ hm⟩

theorem natStr_ne_nil (n : Nat) : (natStr n).data ≠ [] := by
  by_cases h10 : n < 10
  · rw [natStr_small n h10]; simp
  · rw [natStr_step n (by omega)]; simp

theorem natStr_len_le : ∀ k n, 1 ≤ k → n < 10 ^ k → (natStr n).data.length ≤ k := by
  intro k
  induction k with
  | zero => intro n h; omega
  | succ k ih =>
    intro n _ hn
    by_cases h10 : n < 10
    · rw [natStr_small n h10]; simp
    · have h : 10 ≤ n := by omega
      have hdiv : n / 10 < 10 ^ k := by
        rw [Nat.div_lt_iff_lt_mul (by omega)]
        calc n < 10 ^ (k + 1) := hn
        _ = 10 ^ k * 10 := by ring
      have hk : 1 ≤ k := by
        by_contra hc
        have : k = 0 := by omega
        subst this
        simp at hdiv
        omega
      have := ih (n / 10) hk hdiv
      rw [natStr_step n h]
      simp only [List.length_append, List.length_cons, List.length_nil]
      omega

theorem digitsVal_replicate_zero (k : Nat) : digitsVal (List.replicate k '0') = 0 := by
  induction k with
  | zero => rfl
  | succ k ih =>
    show List.foldl _ 0 ('0' :: List.replicate k '0') = 0
    have h0 : (0 : Nat) * 10 + digitVal '0' = 0 := by decide
    rw [List.foldl_cons, h0]
    exact ih

theorem padLeftZeros_data (k : Nat) (s : String) :
    (padLeftZeros k s).data = List.replicate (k - s.length) '0' ++ s.data := rfl

theorem digitsVal_padLeftZeros (k : Nat) (s : String) :
    digitsVal (padLeftZeros k s).data = digitsVal s.data := by
  rw [padLeftZeros_data, digitsVal_append, digitsVal_replicate_zero]
  simp

theorem padLeftZeros_length (k : Nat) (s : String) (h : s.data.length ≤ k) :
    (padLeftZeros k s).data.length = k := by
  rw [padLeftZeros_data]
  simp only [List.length_append, List.length_replicate]
  have : s.length = s.data.length := rfl
  omega

/-! ### MD5 (RFC 1321), over UTF-8 bytes, producing the lowercase hex digest

All 32-bit arithmetic is `Nat` arithmetic reduced `% 2^32`. -/

def M32 : Nat := 4294967296

/-- Bitwise NOT on the low 32 bits. -/
def bnot32 (x : Nat) : Nat := 4294967295 - x % M32

/-- Rotate the low 32 bits of `x` left by `s` (`0 < s < 32`). -/
def rotl32 (x s : Nat) : Nat := ((x % M32) * 2 ^ s + (x % M32) / 2 ^ (32 - s)) % M32

def md5K : List Nat := [
  3614090360, 3905402710, 606105819, 3250441966, 4118548399, 1200080426, 2821735955, 4249261313,
  1770035416, 2336552879, 4294925233, 2304563134, 1804603682, 4254626195, 2792965006, 1236535329,
  4129170786, 3225465664, 643717713, 3921069994, 3593408605, 38016083, 3634488961, 3889429448,
  568446438, 3275163606, 4107603335, 1163531501, 2850285829, 4243563512, 1735328473, 2368359562,
  4294588738, 2272392833, 1839030562, 4259657740, 2763975236, 1272893353, 4139469664, 3200236656,
  681279174, 3936430074, 3572445317, 76029189, 3654602809, 3873151461, 530742520, 3299628645,
  4096336452, 1126891415, 2878612391, 4237533241, 1700485571, 2399980690, 4293915773, 2240044497,
  1873313359, 4264355552, 2734768916, 1309151649, 4149444226, 3174756917, 718787259, 3951481745]

def md5S : List Nat := [
  7, 12, 17, 22, 7, 12, 17, 22, 7, 12, 17, 22, 7, 12, 17, 22,
  5, 9, 14, 20, 5, 9, 14, 20, 5, 9, 14, 20, 5, 9, 14, 20,
  4, 11, 16, 23, 4, 11, 16, 23, 4, 11, 16, 23, 4, 11, 16, 23,
  6, 10, 15, 21, 6, 10, 15, 21, 6, 10, 15, 21, 6, 10, 15, 21]

/-- Round function and message-word index for round `i`. -/
def md5FG (i b c d : Nat) : Nat × Nat :=
  if i < 16 then (((b &&& c) ||| (bnot32 b &&& d)) % M32, i)
  else if i < 32 then (((d &&& b) ||| (bnot32 d &&& c)) % M32, (5 * i + 1) % 16)
  else if i < 48 then ((b ^^^ c ^^^ d) % M32, (3 * i + 5) % 16)
  else ((c ^^^ (b ||| bnot32 d)) % M32, (7 * i) % 16)

def md5Step (M : List Nat) (st : Nat × Nat × Nat × Nat) (i : Nat) : Nat × Nat × Nat × Nat :=
  let a := st.1
  let b := st.2.1
  let c := st.2.2.1
  let d := st.2.2.2
  let fg := md5FG i b c d
  let f := (fg.1 + a + md5K.getD i 0 + M.getD fg.2 0) % M32
  (d, (b + rotl32 f (md5S.getD i 0)) % M32, b, c)

def md5Init : Nat × Nat × Nat × Nat := (1732584193, 4023233417, 2562383102, 271733878)

/-- Split a 64-byte block into 16 little-endian 32-bit words. -/
def bytesToWords : List Nat → List Nat
  | b0 :: b1 :: b2 :: b3 :: rest =>
    (b0 + 256 * b1 + 65536 * b2 + 16777216 * b3) :: bytesToWords rest
  | _ => []

def md5ProcessBlock (st : Nat × Nat × Nat × Nat) (block : List Nat) : Nat × Nat × Nat × Nat :=
  let M := bytesToWords block
  let r := (List.range 64).foldl (md5Step M) st
  ((st.1 + r.1) % M32, (st.2.1 + r.2.1) % M32, (st.2.2.1 + r.2.2.1) % M32,
    (st.2.2.2 + r.2.2.2) % M32)

/-- `k` little-endian bytes of `n`. -/
def leBytes : Nat → Nat → List Nat
  | 0, _ => []
  | k + 1, n => n % 256 :: leBytes k (n / 256)

/-- MD5 padding: `0x80`, zeros to 56 mod 64, then the bit length as 8 LE bytes. -/
def md5Pad (msg : List Nat) : List Nat :=
  msg ++ [128] ++ List.replicate ((119 - msg.length % 64) % 64) 0
    ++ leBytes 8 ((msg.length * 8) % 2 ^ 64)

def chunk64 : Nat → List Nat → List (List Nat)
  | 0, _ => []
  | _ + 1, [] => []
  | f + 1, l => l.take 64 :: chunk64 f (l.drop 64)

/-- The 16-byte MD5 digest of a byte sequence. -/
def md5Bytes (msg : List Nat) : List Nat :=
  let padded := md5Pad msg
  let st := (chunk64 padded.length padded).foldl md5ProcessBlock md5Init
  leBytes 4 st.1 ++ leBytes 4 st.2.1 ++ leBytes 4 st.2.2.1 ++ leBytes 4 st.2.2.2

/-- UTF-8 encoding of one character. -/
def utf8Bytes (c : Char) : List Nat :=
  let n := c.toNat
  if n < 128 then [n]
  else if n < 2048 then [192 + n / 64, 128 + n % 64]
  else if n < 65536 then [224 + n / 4096, 128 + n / 64 % 64, 128 + n % 64]
  else [240 + n / 262144, 128 + n / 4096 % 64, 128 + n / 64 % 64, 128 + n % 64]

def strBytes (s : String) : List Nat := (s.data.map utf8Bytes).flatten

def hexDigitChar (n : Nat) : Char := if n < 10 then digitChar n else Char.ofNat (87 + n)

def byteHex (b : Nat) : List Char := [hexDigitChar (b / 16), hexDigitChar (b % 16)]

/-- `hashlib.md5(s.encode('utf-8')).hexdigest()`. -/
def md5hex (s : String) : String := ⟨((md5Bytes (strBytes s)).map byteHex).flatten⟩

set_option maxRecDepth 40000 in
/-- Model validation: digest of `"abcx"` matches `hashlib.md5(b'abcx').hexdigest()`. -/
theorem md5hex_abcx : md5hex "abcx" = "b1a85930d233609029cc0b18a97b2d5d" := by decide

set_option maxRecDepth 40000 in
/-- Model validation: digest of `"abcy"` matches `hashlib.md5(b'abcy').hexdigest()`. -/
theorem md5hex_abcy : md5hex "abcy" = "0661a847d51ea88c745db47885922506" := by decide

/-! ### Python `Decimal` model (context precision 40, `ROUND_HALF_EVEN`)

All `Decimal` values in `normalize_positions.py` are non-negative, so a value
is a coefficient `c : Nat` together with an exponent `e : Int` (value
`c * 10 ^ e`), exactly Python's `(sign=0, digits, exponent)` triple.  The
coefficient-length checks `len(str(c)) ≤ 40` are expressed as `c < 10 ^ 40`. -/

structure Dec where
  c : Nat
  e : Int
deriving DecidableEq

def P40 : Nat := 10 ^ 40

/-- Round `a / b` to an integer with `ROUND_HALF_EVEN` (`b > 0`). -/
def rheDiv (a b : Nat) : Nat :=
  let q := a / b
  let r := a % b
  if 2 * r < b then q else if b < 2 * r then q + 1 else if q % 2 = 0 then q else q + 1

/-- Number of digits of `A` beyond 40 (0 when `A < 10 ^ 40`); fuel-based. -/
def excessAux : Nat → Nat → Nat
  | 0, _ => 0
  | f + 1, A => if A < P40 then 0 else excessAux f (A / 10) + 1

def excess (A : Nat) : Nat := excessAux A A

/-- Round an exact coefficient `A` at exponent `e` to at most 40 significant
digits (`ROUND_HALF_EVEN`), renormalizing when rounding carries to 41
digits: the result of every context-rounded `Decimal` operation. -/
def roundTo40 (A : Nat) (e : Int) : Dec :=
  if A < P40 then ⟨A, e⟩
  else
    let t := excess A
    let C := rheDiv A (10 ^ t)
    if C < P40 then ⟨C, e + t⟩ else ⟨C / 10, e + t + 1⟩

/-- `Decimal.__add__` at context precision 40: align to the smaller exponent,
add exactly, then round to 40 significant digits. -/
def decAdd40 (x y : Dec) : Dec :=
  let e := min x.e y.e
  roundTo40 (x.c * 10 ^ (x.e - e).toNat + y.c * 10 ^ (y.e - e).toNat) e

/-- `d.quantize(Decimal('0.0000000000000001'))` with the context's
`ROUND_HALF_EVEN`; `none` models the `InvalidOperation` raised when the
quantized coefficient would exceed the 40-digit context precision. -/
def quantize16 (d : Dec) : Option Dec :=
  let c' := if (-16 : Int) ≤ d.e then d.c * 10 ^ (d.e + 16).toNat
            else rheDiv d.c (10 ^ (-d.e - 16).toNat)
  if c' < P40 then some ⟨c', -16⟩ else none

/-- `Decimal(m) / Decimal(10) ** 20` for `m ≤ 999`: the division is exact, and
Python normalizes an exact quotient by stripping trailing zeros (observed:
`500/10^20 = 5E-18`, `0/10^20 = Decimal('0')` with exponent 0). -/
def jitterDec (m : Nat) : Dec :=
  if m = 0 then ⟨0, 0⟩
  else if m % 10 ≠ 0 then ⟨m, -20⟩
  else if m % 100 ≠ 0 then ⟨m / 10, -19⟩
  else ⟨m / 100, -18⟩

/-- `format(d, 'f')` for a quantized value (exponent `-16`): integer digits,
a dot, then exactly 16 fraction digits. -/
def formatF16 (c : Nat) : String :=
  natStr (c / 10 ^ 16) ++ "." ++ padLeftZeros 16 (natStr (c % 10 ^ 16))

/-- Python `str` of a `Decimal` with exponent `-16`: fixed-point when the
adjusted exponent is at least `-6` (coefficient at least `10 ^ 10`),
otherwise scientific notation such as `1.234567E-10` or `0E-16`. -/
def strDec16 (c : Nat) : String :=
  if 10 ^ 10 ≤ c then formatF16 c
  else
    let ds := (natStr c).data
    let mant := if ds.length = 1 then ds else ds.take 1 ++ '.' :: ds.drop 1
    (⟨mant⟩ : String) ++ "E-" ++ natStr (17 - ds.length)

/-- `Decimal(orig_s)` restricted to the plain `digits[.digits]` fragment —
the only forms the coordinate pattern can produce.  The exponent records the
number of fraction digits; the coefficient is the digit string's value. -/
def parseDecLit (s : String) : Option Dec :=
  match splitFirstDot s.data with
  | (ip, none) => if ip ≠ [] ∧ ip.all isDigitC then some ⟨digitsVal ip, 0⟩ else none
  | (ip, some fp) =>
    if (ip ++ fp) ≠ [] ∧ (ip ++ fp).all isDigitC then
      some ⟨digitsVal (ip ++ fp), -(fp.length : Int)⟩
    else none

/-- `len(orig_s.split('.', 1)[1])` when a dot is present, else 0. -/
def decCountS (s : String) : Nat :=
  match (splitFirstDot s.data).2 with
  | some fp => fp.length
  | none => 0

/-- The regex `[0-9]+(?:\.[0-9]+)?` (the numeric group of `coord_pattern`) as
a predicate on whole strings. -/
def matchesCoordLit (s : String) : Bool :=
  match splitFirstDot s.data with
  | (ip, none) => !ip.isEmpty && ip.all isDigitC
  | (ip, some fp) => !ip.isEmpty && !fp.isEmpty && ip.all isDigitC && fp.all isDigitC

/-- `''.join(str(int(c, 16) % 10) for c in hexstr)`. -/
def digitsStream (hex : String) : String :=
  ⟨hex.data.map (fun c => digitChar (hexCharVal c % 10))⟩

/-- `int(hexdigest[:8], 16)`: the 32-bit value `h`. -/
def hval (hex : String) : Nat := hexVal (hex.data.take 8)

/-- Result of the per-literal rewrite: the pattern-group parse failure
passthrough, the uncaught `InvalidOperation` from `quantize`, or the new
literal together with this match's contribution to the `changed` flag.  (The
regex replacement emitted on success is `'"%s": %s' % (name, lit)`.) -/
inductive ReplRes where
  | parseFail
  | invalidOp
  | ok (lit : String) (changed : Bool)
deriving DecidableEq

/-- The quantize step of `repl`, as a function of the digest. -/
def newdOf (hex : String) (dc : Nat) (d : Dec) : Option Dec :=
  if 16 ≤ dc then quantize16 d
  else quantize16 (decAdd40 d (jitterDec (hval hex % 1000)))

/-- The string-building tail of `repl`: split `format(newd, 'f')` at the dot,
pad the base fraction to 16 digits from the hash-derived stream if shorter
(dead in practice: it always has exactly 16), then overwrite the positions of
the original fraction's trailing zeros (capped at 16) with stream digits. -/
def buildLit (hex : String) (origS : String) (newc : Nat) : String :=
  let stream := digitsStream hex
  let pr := splitFirstDot (formatF16 newc).data
  let intpart := pr.1
  let baseFrac := pr.2.getD []
  let origFrac := ((splitFirstDot origS.data).2).getD []
  let ff0 :=
    if baseFrac.length < 16 then
      (baseFrac ++ (repTake stream (16 - baseFrac.length)).data).take 16
    else baseFrac.take 16
  let ff :=
    if origFrac.getLast? = some '0' then
      let tz := min 16 (trailZeros origFrac)
      if 0 < tz then ff0.take (16 - tz) ++ (repTake stream tz).data else ff0
    else ff0
  (⟨intpart⟩ : String) ++ "." ++ (⟨ff⟩ : String)

/-- The per-literal rewrite of `normalize_positions.py` (`repl`), with the
two `hashlib.md5((uid+name).encode('utf-8')).hexdigest()` call sites inlined
exactly as in the source. -/
def repl (uid name origS : String) : ReplRes :=
  match parseDecLit origS with
  | none => .parseFail
  | some d =>
    let dc := decCountS origS
    let h := hexVal ((md5hex (uid ++ name)).data.take 8)
    let jit := jitterDec (h % 1000)
    match (if 16 ≤ dc then quantize16 d else quantize16 (decAdd40 d jit)) with
    | none => .invalidOp
    | some nd =>
      let hexstr := md5hex (uid ++ name)
      let lit := buildLit hexstr origS nd.c
      .ok lit ((strDec16 nd.c != origS) || (lit != origS))

/-- The same rewrite as a function of an arbitrary digest string. -/
def replCore (hex _name origS : String) : ReplRes :=
  match parseDecLit origS with
  | none => .parseFail
  | some d =>
    match newdOf hex (decCountS origS) d with
    | none => .invalidOp
    | some nd =>
      let lit := buildLit hex origS nd.c
      .ok lit ((strDec16 nd.c != origS) || (lit != origS))

set_option maxRecDepth 40000 in
/-- Model validation against CPython (`decimal`, `hashlib`): the worked
examples of the spec, `uid = "abc"`: `"x": 1.0` and `"y": 2.00`. -/
theorem repl_example_abc :
    repl "abc" "x" "1.0" = .ok "1.0000000000000001" true ∧
    repl "abc" "y" "2.00" = .ok "2.0000000000000006" true := by
  constructor <;> decide

set_option maxRecDepth 40000 in
/-- Model validation against CPython: an integer literal gains an all-zero
16-digit fraction, and a 15-digit fraction with trailing zeros gets
stream digits. -/
theorem repl_example_more :
    repl "abc" "x" "1" = .ok "1.0000000000000000" true ∧
    repl "abc" "x" "12.340000000000000" = .ok "12.3401108593032336" true ∧
    repl "u" "x" "7.25" = .ok "7.2500000000000000" true ∧
    repl "abc" "x" "0.0000000001234567" = .ok "0.0000000001234567" true := by
  refine ⟨by decide, by decide, by decide, by decide⟩

/-! ### Shape lemmas for the rewrite output -/

theorem leBytes_length (k : Nat) : ∀ n, (leBytes k n).length = k := by
  induction k with
  | zero => intro n; rfl
  | succ k ih => intro n; show (_ :: leBytes k (n / 256)).length = k + 1; simp [ih]

theorem md5Bytes_length (msg : List Nat) : (md5Bytes msg).length = 16 := by
  show (leBytes 4 _ ++ leBytes 4 _ ++ leBytes 4 _ ++ leBytes 4 _).length = 16
  simp [leBytes_length]

theorem byteHex_flatten_length : ∀ l : List Nat, ((l.map byteHex).flatten).length = 2 * l.length := by
  intro l
  induction l with
  | nil => rfl
  | cons b t ih =>
    show (byteHex b ++ (t.map byteHex).flatten).length = 2 * (t.length + 1)
    simp [byteHex, ih]
    omega

theorem md5hex_length (s : String) : (md5hex s).data.length = 32 := by
  show ((md5Bytes (strBytes s)).map byteHex).flatten.length = 32
  rw [byteHex_flatten_length, md5Bytes_length]

theorem splitFirstDot_append_dot (l r : List Char) (h : ∀ c ∈ l, c ≠ '.') :
    splitFirstDot (l ++ '.' :: r) = (l, some r) := by
  induction l with
  | nil => simp [splitFirstDot]
  | cons c t ih =>
    have hc : c ≠ '.' := h c (by simp)
    show splitFirstDot (c :: (t ++ '.' :: r)) = _
    rw [splitFirstDot, if_neg hc]
    rw [ih (fun x hx => h x (by simp [hx]))]

theorem splitFirstDot_no_dot (l : List Char) (h : ∀ c ∈ l, c ≠ '.') :
    splitFirstDot l = (l, none) := by
  induction l with
  | nil => rfl
  | cons c t ih =>
    have hc : c ≠ '.' := h c (by simp)
    rw [splitFirstDot, if_neg hc]
    rw [ih (fun x hx => h x (by simp [hx]))]

theorem string_append_data (s t : String) : (s ++ t).data = s.data ++ t.data := rfl

theorem formatF16_data (c : Nat) :
    (formatF16 c).data
      = (natStr (c / 10 ^ 16)).data ++ '.' :: (padLeftZeros 16 (natStr (c % 10 ^ 16))).data := by
  show (natStr (c / 10 ^ 16) ++ "." ++ padLeftZeros 16 (natStr (c % 10 ^ 16))).data = _
  rw [string_append_data, string_append_data, List.append_assoc]
  rfl

theorem padFrac_length (c : Nat) :
    (padLeftZeros 16 (natStr (c % 10 ^ 16))).data.length = 16 := by
  apply padLeftZeros_length
  exact natStr_len_le 16 (c % 10 ^ 16) (by omega) (Nat.mod_lt c (by positivity))

theorem padFrac_digits (c : Nat) :
    ∀ ch ∈ (padLeftZeros 16 (natStr (c % 10 ^ 16))).data, isDigitC ch = true ∧ ch ≠ '.' := by
  intro ch hch
  rw [padLeftZeros_data] at hch
  rcases List.mem_append.mp hch with h | h
  · have : ch = '0' := List.eq_of_mem_replicate h
    subst this
    exact ⟨by decide, by decide⟩
  · exact natStr_digits _ ch h

theorem repTake_data (s : String) (n : Nat) :
    (repTake s n).data = ((List.replicate (n / s.length + 1) s.data).flatten).take n := rfl

theorem flatten_replicate_length (k : Nat) (l : List Char) :
    ((List.replicate k l).flatten).length = k * l.length := by
  induction k with
  | zero => simp
  | succ k ih =>
    show (l ++ (List.replicate k l).flatten).length = _
    simp [ih]
    ring

theorem repTake_length (s : String) (n : Nat) (h : 0 < s.data.length) :
    (repTake s n).data.length = n := by
  rw [repTake_data, List.length_take, flatten_replicate_length]
  have hsl : s.length = s.data.length := rfl
  have hlt : n < (n / s.length + 1) * s.data.length := by
    rw [← hsl]
    have h1 : s.length * (n / s.length) + n % s.length = n := Nat.div_add_mod n s.length
    have h2 : n % s.length < s.length := Nat.mod_lt _ (hsl ▸ h)
    calc n = s.length * (n / s.length) + n % s.length := h1.symm
    _ < s.length * (n / s.length) + s.length := Nat.add_lt_add_left h2 _
    _ = (n / s.length + 1) * s.length := by ring
  omega

theorem mem_repTake (s : String) (n : Nat) :
    ∀ c ∈ (repTake s n).data, c ∈ s.data := by
  intro c hc
  rw [repTake_data] at hc
  have h1 := List.mem_of_mem_take hc
  have h2 := List.mem_flatten.mp h1
  obtain ⟨l, hl, hcl⟩ := h2
  have := List.eq_of_mem_replicate hl
  subst this
  exact hcl

theorem digitsStream_digits (hx : String) :
    ∀ c ∈ (digitsStream hx).data, isDigitC c = true ∧ c ≠ '.' := by
  intro c hc
  have hc' : c ∈ hx.data.map (fun c => digitChar (hexCharVal c % 10)) := hc
  obtain ⟨a, _, rfl⟩ := List.mem_map.mp hc'
  have hm : hexCharVal a % 10 < 10 := Nat.mod_lt _ (by omega)
  exact ⟨isDigitC_digitChar _ hm, digitChar_ne_dot _ hm⟩

theorem digitsStream_length (hx : String) :
    (digitsStream hx).data.length = hx.data.length := by
  show (hx.data.map _).length = _
  simp

/-- Structure of every literal produced by `buildLit`: integer digits of the
quantized value, a dot, then exactly 16 decimal digits. -/
theorem buildLit_shape (hex origS : String) (c : Nat) (hh : 0 < hex.data.length) :
    ∃ F : List Char, (buildLit hex origS c).data = (natStr (c / 10 ^ 16)).data ++ '.' :: F ∧
      F.length = 16 ∧ ∀ ch ∈ F, isDigitC ch = true := by
  have hsplit : splitFirstDot (formatF16 c).data
      = ((natStr (c / 10 ^ 16)).data, some (padLeftZeros 16 (natStr (c % 10 ^ 16))).data) := by
    rw [formatF16_data]
    exact splitFirstDot_append_dot _ _ (fun x hx => (natStr_digits _ x hx).2)
  have hstream : 0 < (digitsStream hex).data.length := by
    rw [digitsStream_length]; exact hh
  have hbl : (padLeftZeros 16 (natStr (c % 10 ^ 16))).data.length = 16 := padFrac_length c
  unfold buildLit
  rw [hsplit]
  simp only [Option.getD_some]
  set B := (padLeftZeros 16 (natStr (c % 10 ^ 16))).data with hB
  have hff0 : (if B.length < 16 then (B ++ (repTake (digitsStream hex) (16 - B.length)).data).take 16
      else B.take 16) = B := by
    rw [if_neg (by omega)]
    conv_lhs => rw [← hbl]
    exact List.take_length B
  rw [hff0]
  set oF := ((splitFirstDot origS.data).2).getD [] with hoF
  by_cases hz : oF.getLast? = some '0'
  · rw [if_pos hz]
    set tz := min 16 (trailZeros oF) with htz
    have htzle : tz ≤ 16 := by omega
    by_cases h0 : 0 < tz
    · rw [if_pos h0]
      refine ⟨B.take (16 - tz) ++ (repTake (digitsStream hex) tz).data, ?_, ?_, ?_⟩
      · simp only [string_append_data, List.append_assoc]
        rfl
      · rw [List.length_append, List.length_take, repTake_length _ _ hstream]
        omega
      · intro ch hch
        rcases List.mem_append.mp hch with h | h
        · exact ((padFrac_digits c) ch (List.mem_of_mem_take h)).1
        · exact ((digitsStream_digits hex) ch (mem_repTake _ _ ch h)).1
    · rw [if_neg h0]
      refine ⟨B, by simp only [string_append_data, List.append_assoc]; rfl, hbl, ?_⟩
      intro ch hch
      exact ((padFrac_digits c) ch hch).1
  · rw [if_neg hz]
    refine ⟨B, by simp only [string_append_data, List.append_assoc]; rfl, hbl, ?_⟩
    intro ch hch
    exact ((padFrac_digits c) ch hch).1

/-! ### Claims C2, C10, C9 -/

/-- C2: every coordinate literal that the jitter transform rewrites (i.e.,
every match of the coordinate pattern whose rewrite completes) is replaced by
a literal of the form `<integer-part>.<fractional-part>` whose fractional
part consists of exactly 16 decimal digits — including when the original
literal was an integer with no decimal point. -/
theorem C2_sixteen_fraction_digits (uid name s lit : String) (ch : Bool)
    (h : repl uid name s = .ok lit ch) :
    ∃ ip F, lit.data = ip ++ '.' :: F ∧ F.length = 16 ∧
      (∀ c ∈ F, isDigitC c = true) ∧ ip ≠ [] ∧ (∀ c ∈ ip, isDigitC c = true) := by
  unfold repl at h
  cases hp : parseDecLit s with
  | none => rw [hp] at h; exact absurd h (by simp)
  | some d =>
    rw [hp] at h
    simp only at h
    cases hq : (if 16 ≤ decCountS s then quantize16 d
        else quantize16 (decAdd40 d (jitterDec (hexVal ((md5hex (uid ++ name)).data.take 8) % 1000)))) with
    | none => rw [hq] at h; exact absurd h (by simp)
    | some nd =>
      rw [hq] at h
      simp only [ReplRes.ok.injEq] at h
      obtain ⟨hlit, _⟩ := h
      subst hlit
      obtain ⟨F, hF, hlen, hdig⟩ := buildLit_shape (md5hex (uid ++ name)) s nd.c
        (by rw [md5hex_length]; omega)
      refine ⟨(natStr (nd.c / 10 ^ 16)).data, F, hF, hlen, hdig, natStr_ne_nil _, ?_⟩
      intro c hc
      exact (natStr_digits _ c hc).1

set_option maxRecDepth 40000 in
/-- Witness for C2 at the integer literal `"1"` with uid `"abc"`, field `"x"`. -/
theorem C2_sixteen_fraction_digits_witness :
    ∃ ip F, ("1.0000000000000000" : String).data = ip ++ '.' :: F ∧ F.length = 16 ∧
      (∀ c ∈ F, isDigitC c = true) ∧ ip ≠ [] ∧ (∀ c ∈ ip, isDigitC c = true) :=
  C2_sixteen_fraction_digits "abc" "x" "1" "1.0000000000000000" true (by decide)

/-- C10 (amended): every string matched by the numeric group of
`coord_pattern` parses successfully as a `Decimal` — the parse-failure
branch is unreachable — and the rewrite then either completes with a
literal or raises the uncaught quantize `InvalidOperation`; it is never
skipped by the parse guard. -/
theorem C10_parse_branch_unreachable (uid name s : String)
    (h : matchesCoordLit s = true) :
    (parseDecLit s).isSome = true ∧ repl uid name s ≠ .parseFail ∧
      (repl uid name s = .invalidOp ∨ ∃ lit chg, repl uid name s = .ok lit chg) := by
  have hps : (parseDecLit s).isSome = true := by
    unfold matchesCoordLit at h
    unfold parseDecLit
    cases hsp : splitFirstDot s.data with
    | mk ip rest =>
      rw [hsp] at h
      cases rest with
      | none =>
        simp only [Bool.and_eq_true, Bool.not_eq_true'] at h
        show (if ip ≠ [] ∧ ip.all isDigitC = true then some (⟨digitsVal ip, 0⟩ : Dec)
            else none).isSome = true
        rw [if_pos]
        · rfl
        · refine ⟨?_, h.2⟩
          intro he
          rw [he] at h
          simp at h
      | some fp =>
        simp only [Bool.and_eq_true, Bool.not_eq_true'] at h
        obtain ⟨⟨⟨hip, hfp⟩, hipd⟩, hfpd⟩ := h
        show (if ip ++ fp ≠ [] ∧ (ip ++ fp).all isDigitC = true
            then some (⟨digitsVal (ip ++ fp), -(fp.length : Int)⟩ : Dec) else none).isSome = true
        rw [if_pos]
        · rfl
        · constructor
          · intro he
            have hie : ip = [] := by
              cases ip with
              | nil => rfl
              | cons a t => simp at he
            rw [hie] at hip
            simp at hip
          · rw [List.all_append]
            simp only [Bool.and_eq_true]
            exact ⟨hipd, hfpd⟩
  refine ⟨hps, ?_, ?_⟩
  · unfold repl
    cases hp : parseDecLit s with
    | none => rw [hp] at hps; simp at hps
    | some d =>
      simp only
      cases hq : (if 16 ≤ decCountS s then quantize16 d
          else quantize16 (decAdd40 d (jitterDec (hexVal ((md5hex (uid ++ name)).data.take 8) % 1000)))) with
      | none => exact fun hcon => ReplRes.noConfusion hcon
      | some nd => exact fun hcon => ReplRes.noConfusion hcon
  · unfold repl
    cases hp : parseDecLit s with
    | none => rw [hp] at hps; simp at hps
    | some d =>
      simp only
      cases hq : (if 16 ≤ decCountS s then quantize16 d
          else quantize16 (decAdd40 d (jitterDec (hexVal ((md5hex (uid ++ name)).data.take 8) % 1000)))) with
      | none => exact Or.inl rfl
      | some nd => exact Or.inr ⟨_, _, rfl⟩

set_option maxRecDepth 40000 in
/-- Counterexample for C10 as stated: the 25-digit integer literal is matched
by the coordinate pattern and parses successfully, yet it is NOT rewritten to
the 16-fractional-digit form — the quantize step raises an uncaught
`InvalidOperation` (the quantized coefficient would need 41 digits, beyond
the precision-40 context). -/
theorem C10_counterexample :
    matchesCoordLit "1111111111111111111111111" = true ∧
    (parseDecLit "1111111111111111111111111").isSome = true ∧
    repl "abc" "x" "1111111111111111111111111" = .invalidOp := by
  refine ⟨by decide, by decide, by decide⟩

set_option maxRecDepth 40000 in
/-- Witness for C10 at the literal `"1.0"`. -/
theorem C10_parse_branch_unreachable_witness :
    (parseDecLit "1.0").isSome = true ∧ repl "abc" "x" "1.0" ≠ .parseFail ∧
      (repl "abc" "x" "1.0" = .invalidOp ∨ ∃ lit chg, repl "abc" "x" "1.0" = .ok lit chg) :=
  C10_parse_branch_unreachable "abc" "x" "1.0" (by decide)

/-- C9: the per-coordinate rewrite is deterministic and a pure function of
the uid, the field name and the original literal text: it factors through
the MD5 digest of `uid + name` (both hash call sites use exactly that
string), so any two evaluations with the same inputs — on any file, in any
run — produce the same output, and even different `(uid, name)` pairs with
the same concatenation agree. -/
theorem C9_pure_function_of_inputs :
    (∀ uid name s, repl uid name s = replCore (md5hex (uid ++ name)) name s) ∧
    (∀ u₁ n₁ u₂ n₂ s, md5hex (u₁ ++ n₁) = md5hex (u₂ ++ n₂) →
      repl u₁ n₁ s = repl u₂ n₂ s) := by
  have hbase : ∀ uid name s, repl uid name s = replCore (md5hex (uid ++ name)) name s := by
    intro uid name s
    rfl
  refine ⟨hbase, ?_⟩
  intro u₁ n₁ u₂ n₂ s h
  rw [hbase u₁ n₁ s, hbase u₂ n₂ s, h]
  rfl

/-- Witness for C9: splitting the same hash input `"abcx"` differently
between uid and name yields the identical rewrite. -/
theorem C9_pure_function_of_inputs_witness :
    repl "ab" "cx" "7.25" = repl "abc" "x" "7.25" :=
  C9_pure_function_of_inputs.2 "ab" "cx" "abc" "x" "7.25" rfl

/-! ### Digit-string round-trip lemmas -/

theorem isDigitC_ne_dot (c : Char) (h : isDigitC c = true) : c ≠ '.' := by
  intro he
  subst he
  simp [isDigitC] at h

theorem isDigitC_val_lt (c : Char) (h : isDigitC c = true) : digitVal c < 10 := by
  simp only [isDigitC, Bool.and_eq_true, decide_eq_true_eq] at h
  simp [digitVal]
  omega

theorem digitChar_digitVal (c : Char) (h : isDigitC c = true) : digitChar (digitVal c) = c := by
  simp only [isDigitC, Bool.and_eq_true, decide_eq_true_eq] at h
  have he : 48 + digitVal c = c.toNat := by simp [digitVal]; omega
  rw [digitChar, he]
  exact Char.ofNat_toNat c

theorem digitVal_pos (c : Char) (h : isDigitC c = true) (h0 : c ≠ '0') : 1 ≤ digitVal c := by
  simp only [isDigitC, Bool.and_eq_true, decide_eq_true_eq] at h
  have : c.toNat ≠ 48 := by
    intro he
    apply h0
    have := Char.ofNat_toNat c
    rw [← this, he]
  show 1 ≤ c.toNat - 48
  omega

theorem digitsVal_lt (l : List Char) (h : ∀ c ∈ l, isDigitC c = true) :
    digitsVal l < 10 ^ l.length := by
  induction l using List.reverseRecOn with
  | nil => simp [digitsVal]
  | append_singleton t c ih =>
    rw [digitsVal_append]
    have h1 := ih (fun x hx => h x (List.mem_append.mpr (Or.inl hx)))
    have h2 : digitVal c < 10 := isDigitC_val_lt c (h c (List.mem_append.mpr (Or.inr (by simp))))
    have h3 : digitsVal [c] = digitVal c := by simp [digitsVal]
    rw [h3]
    simp only [List.length_append, List.length_cons, List.length_nil]
    have e : 10 ^ (t.length + (0 + 1)) = 10 ^ t.length * 10 := by ring
    rw [e]
    calc digitsVal t * 10 ^ 1 + digitVal c < digitsVal t * 10 + 10 := by
          rw [pow_one]; omega
    _ ≤ 10 ^ t.length * 10 := by
          have : digitsVal t + 1 ≤ 10 ^ t.length := h1
          nlinarith
  
theorem digitsVal_all_zero (l : List Char) (h : ∀ c ∈ l, c = '0') : digitsVal l = 0 := by
  induction l with
  | nil => rfl
  | cons a t ih =>
    have ha : a = '0' := h a (by simp)
    subst ha
    show List.foldl _ (0 * 10 + digitVal '0') t = 0
    have h0 : (0 : Nat) * 10 + digitVal '0' = 0 := by decide
    rw [h0]
    exact ih (fun c hc => h c (by simp [hc]))

theorem digitsVal_head_pos (c₀ : Char) (t : List Char) (hd : isDigitC c₀ = true)
    (h0 : c₀ ≠ '0') : 1 ≤ digitsVal (c₀ :: t) := by
  have he : (c₀ :: t : List Char) = [c₀] ++ t := rfl
  rw [he, digitsVal_append]
  have h1 : digitsVal [c₀] = digitVal c₀ := by simp [digitsVal]
  have h2 := digitVal_pos c₀ hd h0
  have h3 : 0 < 10 ^ t.length := by positivity
  rw [h1]
  nlinarith

theorem head?_dropWhile_not (p : Char → Bool) :
    ∀ l : List Char, ∀ c, (l.dropWhile p).head? = some c → p c = false := by
  intro l
  induction l with
  | nil => intro c h; simp [List.dropWhile] at h
  | cons a t ih =>
    intro c h
    by_cases hp : p a
    · rw [List.dropWhile_cons_of_pos hp] at h; exact ih c h
    · rw [List.dropWhile_cons_of_neg hp] at h
      simp at h
      subst h
      simpa using hp

theorem natStr_digitsVal : ∀ l : List Char, l ≠ [] → (∀ c ∈ l, isDigitC c = true) →
    l.head? ≠ some '0' → (natStr (digitsVal l)).data = l := by
  intro l
  induction l using List.reverseRecOn with
  | nil => intro h; exact absurd rfl h
  | append_singleton F c ih =>
    intro _ hd h0
    cases hF : F with
    | nil =>
      subst hF
      have hc : isDigitC c = true := hd c (by simp)
      have h1 : digitsVal [c] = digitVal c := by simp [digitsVal]
      simp only [List.nil_append]
      rw [h1, natStr_small (digitVal c) (isDigitC_val_lt c hc), digitChar_digitVal c hc]
    | cons a t =>
      subst hF
      have hda : isDigitC a = true := hd a (by simp)
      have ha0 : a ≠ '0' := by
        intro he
        apply h0
        rw [he]
        rfl
      have hvF : 1 ≤ digitsVal (a :: t) := digitsVal_head_pos a t hda ha0
      have hdc : digitVal c < 10 :=
        isDigitC_val_lt c (hd c (List.mem_append.mpr (Or.inr (by simp))))
      have h955 : digitsVal ((a :: t) ++ [c]) = digitsVal (a :: t) * 10 + digitVal c := by
        rw [digitsVal_append]
        simp [digitsVal, pow_one]
      have hge : 10 ≤ digitsVal ((a :: t) ++ [c]) := by rw [h955]; omega
      rw [natStr_step _ hge]
      have hdiv : digitsVal ((a :: t) ++ [c]) / 10 = digitsVal (a :: t) := by rw [h955]; omega
      have hmod : digitsVal ((a :: t) ++ [c]) % 10 = digitVal c := by rw [h955]; omega
      rw [hdiv, hmod]
      rw [ih (by simp) (fun x hx => hd x (List.mem_append.mpr (Or.inl hx))) h0]
      rw [digitChar_digitVal c (hd c (List.mem_append.mpr (Or.inr (by simp))))]

theorem string_ext (a b : String) (h : a.data = b.data) : a = b := by
  cases a; cases b; exact congrArg String.mk h

theorem pad16_roundtrip (F : List Char) (hlen : F.length = 16)
    (hd : ∀ c ∈ F, isDigitC c = true) :
    (padLeftZeros 16 (natStr (digitsVal F))).data = F := by
  set p : Char → Bool := fun c => c == '0' with hp
  set Z := F.takeWhile p with hZ
  set R := F.dropWhile p with hR
  have hsplit : Z ++ R = F := List.takeWhile_append_dropWhile p F
  have hZ0 : ∀ c ∈ Z, c = '0' := by
    intro c hc
    have := List.mem_takeWhile_imp hc
    rwa [hp, beq_iff_eq] at this
  have hvF : digitsVal F = digitsVal R := by
    rw [← hsplit, digitsVal_append, digitsVal_all_zero Z hZ0]
    simp
  have hZlen : Z.length + R.length = 16 := by
    rw [← hlen, ← hsplit, List.length_append]
  cases hRc : R with
  | nil =>
    have hFZ : F = Z := by rw [← hsplit, hRc]; simp
    have hF0 : ∀ c ∈ F, c = '0' := hFZ ▸ hZ0
    have hv0 : digitsVal F = 0 := digitsVal_all_zero F hF0
    rw [hv0]
    have hn0 : (natStr 0).data = ['0'] := by decide
    rw [padLeftZeros_data]
    have hlen0 : (natStr 0).length = 1 := by
      show (natStr 0).data.length = 1
      rw [hn0]
      rfl
    rw [hlen0, hn0]
    have hFrep : F = List.replicate 16 '0' := (List.eq_replicate_iff).mpr ⟨hlen, hF0⟩
    rw [hFrep]
    decide
  | cons a t =>
    have hRne : R ≠ [] := by rw [hRc]; simp
    have hRhead : R.head? ≠ some '0' := by
      intro hh
      rw [hR] at hh
      have := head?_dropWhile_not p F '0' hh
      simp [hp] at this
    have hRd : ∀ c ∈ R, isDigitC c = true := by
      intro c hc
      rw [hR] at hc
      have hsub : (List.dropWhile p F).Sublist F := List.dropWhile_sublist _
      exact hd c (hsub.subset hc)
    have hRv : (natStr (digitsVal R)).data = R := natStr_digitsVal R hRne hRd hRhead
    rw [hvF, padLeftZeros_data]
    have hlenR : (natStr (digitsVal R)).length = R.length := by
      show (natStr (digitsVal R)).data.length = R.length
      rw [hRv]
    rw [hlenR, hRv]
    have hZrep : Z = List.replicate Z.length '0' := (List.eq_replicate_iff).mpr ⟨rfl, hZ0⟩
    have hzl : 16 - R.length = Z.length := by omega
    rw [hzl, ← hZrep, hsplit]

theorem trailZeros_pos (l : List Char) (h : l.getLast? = some '0') : 0 < trailZeros l := by
  rw [List.getLast?_eq_head?_reverse] at h
  unfold trailZeros
  cases hr : l.reverse with
  | nil => rw [hr] at h; simp at h
  | cons a t =>
    rw [hr] at h
    simp at h
    subst h
    simp [List.takeWhile]

theorem quantize16_some (d nd : Dec) (h : quantize16 d = some nd) :
    nd.c < P40 ∧ nd.e = -16 := by
  simp only [quantize16] at h
  by_cases hc : (if (-16 : Int) ≤ d.e then d.c * 10 ^ (d.e + 16).toNat
      else rheDiv d.c (10 ^ (-d.e - 16).toNat)) < P40
  · rw [if_pos hc] at h
    have he := Option.some.inj h
    rw [← he]
    exact ⟨hc, rfl⟩
  · rw [if_neg hc] at h
    exact absurd h (by simp)

theorem newdOf_some (hex : String) (dc : Nat) (d nd : Dec)
    (h : newdOf hex dc d = some nd) : nd.c < P40 ∧ nd.e = -16 := by
  unfold newdOf at h
  split at h
  · exact quantize16_some d nd h
  · exact quantize16_some _ nd h

/-! ### Claims C6 and C5 -/

/-- Unfolding of `repl` once the pattern group has parsed. -/
theorem repl_eq_of_parse (uid name s : String) (d : Dec) (hp : parseDecLit s = some d) :
    repl uid name s = match newdOf (md5hex (uid ++ name)) (decCountS s) d with
      | none => ReplRes.invalidOp
      | some nd => .ok (buildLit (md5hex (uid ++ name)) s nd.c)
          ((strDec16 nd.c != s) || (buildLit (md5hex (uid ++ name)) s nd.c != s)) := by
  unfold repl
  rw [hp]
  rfl

/-- Value of `buildLit` (the base fraction always has exactly 16 digits, so
the stream only enters through the trailing-zero overwrite). -/
theorem buildLit_eq (hex origS : String) (c : Nat) :
    buildLit hex origS c
      = ⟨(natStr (c / 10 ^ 16)).data ++ '.' ::
          (let B := (padLeftZeros 16 (natStr (c % 10 ^ 16))).data
           let oF := ((splitFirstDot origS.data).2).getD []
           let tz := min 16 (trailZeros oF)
           if oF.getLast? = some '0'
           then B.take (16 - tz) ++ (repTake (digitsStream hex) tz).data
           else B)⟩ := by
  have hsplit : splitFirstDot (formatF16 c).data
      = ((natStr (c / 10 ^ 16)).data, some (padLeftZeros 16 (natStr (c % 10 ^ 16))).data) := by
    rw [formatF16_data]
    exact splitFirstDot_append_dot _ _ (fun x hx => (natStr_digits _ x hx).2)
  have hbl : (padLeftZeros 16 (natStr (c % 10 ^ 16))).data.length = 16 := padFrac_length c
  have htake : (padLeftZeros 16 (natStr (c % 10 ^ 16))).data.take 16
      = (padLeftZeros 16 (natStr (c % 10 ^ 16))).data :=
    List.take_of_length_le (le_of_eq hbl)
  apply string_ext
  show (buildLit hex origS c).data
      = (natStr (c / 10 ^ 16)).data ++ '.' ::
        (if (((splitFirstDot origS.data).2).getD []).getLast? = some '0'
         then (padLeftZeros 16 (natStr (c % 10 ^ 16))).data.take
               (16 - min 16 (trailZeros (((splitFirstDot origS.data).2).getD [])))
             ++ (repTake (digitsStream hex)
                  (min 16 (trailZeros (((splitFirstDot origS.data).2).getD [])))).data
         else (padLeftZeros 16 (natStr (c % 10 ^ 16))).data)
  unfold buildLit
  rw [hsplit]
  simp only [Option.getD_some]
  have hnot : ¬ (padLeftZeros 16 (natStr (c % 10 ^ 16))).data.length < 16 := by omega
  rw [if_neg hnot, htake]
  by_cases hz : (((splitFirstDot origS.data).2).getD []).getLast? = some '0'
  · rw [if_pos hz, if_pos hz]
    have htzpos : 0 < min 16 (trailZeros (((splitFirstDot origS.data).2).getD [])) :=
      lt_min (by omega) (trailZeros_pos _ hz)
    rw [if_pos htzpos]
    simp only [string_append_data, List.append_assoc]
    rfl
  · rw [if_neg hz, if_neg hz]
    simp only [string_append_data, List.append_assoc]
    rfl

/-- C6: in every rewritten literal, if the original fractional part ended in
one or more zero digits, the trailing `min 16 tz` positions of the final
16-digit fraction are overwritten with the hash-derived digit stream (each
hex character of the full MD5 digest of `uid+name` taken mod 10); literals
whose original fraction does not end in a zero keep the quantized value's
fractional digits unchanged. -/
theorem C6_trailing_zero_stream (uid name s lit : String) (ch : Bool)
    (h : repl uid name s = .ok lit ch) :
    ∃ d nd, parseDecLit s = some d ∧
      newdOf (md5hex (uid ++ name)) (decCountS s) d = some nd ∧
      (let B := (padLeftZeros 16 (natStr (nd.c % 10 ^ 16))).data
       let oF := ((splitFirstDot s.data).2).getD []
       let tz := min 16 (trailZeros oF)
       lit.data = (natStr (nd.c / 10 ^ 16)).data ++ '.' ::
         (if oF.getLast? = some '0'
          then B.take (16 - tz) ++ (repTake (digitsStream (md5hex (uid ++ name))) tz).data
          else B)) := by
  cases hp : parseDecLit s with
  | none => rw [repl] at h; rw [hp] at h; exact absurd h (by simp)
  | some d =>
    rw [repl_eq_of_parse uid name s d hp] at h
    cases hq : newdOf (md5hex (uid ++ name)) (decCountS s) d with
    | none => rw [hq] at h; exact absurd h (by simp)
    | some nd =>
      rw [hq] at h
      simp only [ReplRes.ok.injEq] at h
      obtain ⟨hlit, _⟩ := h
      refine ⟨d, nd, rfl, hq, ?_⟩
      rw [← hlit, buildLit_eq]

set_option maxRecDepth 40000 in
/-- Witness for C6: `"12.340000000000000"` has 13 trailing zeros; they are
replaced by the first 13 stream digits of the digest of `"abcx"`. -/
theorem C6_trailing_zero_stream_witness :
    ∃ d nd, parseDecLit "12.340000000000000" = some d ∧
      newdOf (md5hex ("abc" ++ "x")) (decCountS "12.340000000000000") d = some nd ∧
      (let B := (padLeftZeros 16 (natStr (nd.c % 10 ^ 16))).data
       let oF := ((splitFirstDot ("12.340000000000000" : String).data).2).getD []
       let tz := min 16 (trailZeros oF)
       ("12.3401108593032336" : String).data = (natStr (nd.c / 10 ^ 16)).data ++ '.' ::
         (if oF.getLast? = some '0'
          then B.take (16 - tz) ++ (repTake (digitsStream (md5hex ("abc" ++ "x"))) tz).data
          else B)) :=
  C6_trailing_zero_stream "abc" "x" "12.340000000000000" "12.3401108593032336" true (by decide)

set_option maxRecDepth 40000 in
/-- Counterexample for C5 as stated: with uid `"abc"`, field `"x"`, literal
`"1.5000"`, the first rewrite ends in a stream digit `0`, so a second
application rewrites the literal again (and reports it changed). -/
theorem C5_counterexample :
    repl "abc" "x" "1.5000" = .ok "1.5000000000000110" true ∧
    repl "abc" "x" "1.5000000000000110" = .ok "1.5000000000000111" true ∧
    ("1.5000000000000110" : String) ≠ "1.5000000000000111" :=
  ⟨by decide, by decide, by decide⟩

/-- C5 (amended): the per-coordinate rewrite is idempotent on first-pass
outputs whose fraction does not end in the digit `0` and whose value is at
least `10 ^ -6` (significand at least `10 ^ 10`, so Python `str` shows fixed
point): applying the rewrite to such a literal returns it unchanged with the
changed flag false.  (First-pass outputs ending in a stream digit `0`, and
values below `10 ^ -6`, genuinely break the claim as stated.) -/
theorem C5_second_pass_stable (uid name s lit : String) (ch : Bool)
    (h : repl uid name s = .ok lit ch)
    (hz : lit.data.getLast? ≠ some '0')
    (hbig : ∀ d₂, parseDecLit lit = some d₂ → 10 ^ 10 ≤ d₂.c) :
    repl uid name lit = .ok lit false := by
  cases hp : parseDecLit s with
  | none => rw [repl] at h; rw [hp] at h; exact absurd h (by simp)
  | some d =>
    rw [repl_eq_of_parse uid name s d hp] at h
    cases hq : newdOf (md5hex (uid ++ name)) (decCountS s) d with
    | none => rw [hq] at h; exact absurd h (by simp)
    | some nd =>
      rw [hq] at h
      simp only [ReplRes.ok.injEq] at h
      obtain ⟨hlit, _⟩ := h
      obtain ⟨hndlt, _⟩ := newdOf_some _ _ _ _ hq
      obtain ⟨F, hF0, hFlen, hFdig⟩ := buildLit_shape (md5hex (uid ++ name)) s nd.c
        (by rw [md5hex_length]; omega)
      rw [hlit] at hF0
      set I := (natStr (nd.c / 10 ^ 16)).data with hI
      have hIdig : ∀ c ∈ I, isDigitC c = true := fun c hc => (natStr_digits _ c hc).1
      have hIdot : ∀ c ∈ I, c ≠ '.' := fun c hc => (natStr_digits _ c hc).2
      have hIne : I ≠ [] := natStr_ne_nil _
      have hFne : F ≠ [] := by
        intro he
        rw [he] at hFlen
        simp at hFlen
      have hsplit2 : splitFirstDot lit.data = (I, some F) := by
        rw [hF0]
        exact splitFirstDot_append_dot I F hIdot
      have hparse : parseDecLit lit = some ⟨digitsVal I * 10 ^ 16 + digitsVal F, -16⟩ := by
        unfold parseDecLit
        rw [hsplit2]
        show (if I ++ F ≠ [] ∧ (I ++ F).all isDigitC = true
            then some (⟨digitsVal (I ++ F), -(F.length : Int)⟩ : Dec) else none) = _
        have hcond : I ++ F ≠ [] ∧ (I ++ F).all isDigitC = true := by
          constructor
          · intro he
            exact hIne (List.append_eq_nil.mp he).1
          · rw [List.all_append]
            simp only [Bool.and_eq_true]
            exact ⟨List.all_eq_true.mpr hIdig, List.all_eq_true.mpr hFdig⟩
        rw [if_pos hcond]
        rw [show digitsVal (I ++ F) = digitsVal I * 10 ^ 16 + digitsVal F from by
          rw [digitsVal_append, hFlen]]
        rw [hFlen]
        norm_num
      set c₂ := digitsVal I * 10 ^ 16 + digitsVal F with hc₂
      have hIval : digitsVal I = nd.c / 10 ^ 16 := by rw [hI]; exact natStr_val _
      have hFlt : digitsVal F < 10 ^ 16 := by
        have := digitsVal_lt F hFdig
        rwa [hFlen] at this
      have hc2lt : c₂ < 10 ^ 40 := by
        have hnd : nd.c < 10 ^ 40 := hndlt
        have h1 : nd.c / 10 ^ 16 < 10 ^ 24 := by omega
        rw [hc₂, hIval]
        nlinarith [h1, hFlt]
      have hbig2 : 10 ^ 10 ≤ c₂ := hbig _ hparse
      have hdc : decCountS lit = 16 := by
        unfold decCountS
        rw [hsplit2]
        exact hFlen
      have hquant : quantize16 ⟨c₂, -16⟩ = some ⟨c₂, -16⟩ := by
        have hP : c₂ < P40 := hc2lt
        have he16 : quantize16 ⟨c₂, -16⟩ = if c₂ < P40 then some ⟨c₂, -16⟩ else none := by
          unfold quantize16
          have h2 : ((-16 : Int) + 16).toNat = 0 := by norm_num
          simp only [le_refl, if_true, h2, pow_zero, mul_one]
        rw [he16, if_pos hP]
      have hnew : newdOf (md5hex (uid ++ name)) (decCountS lit) ⟨c₂, -16⟩ = some ⟨c₂, -16⟩ := by
        unfold newdOf
        rw [hdc, if_pos (by norm_num)]
        exact hquant
      have hdiv2 : c₂ / 10 ^ 16 = digitsVal I := by omega
      have hmod2 : c₂ % 10 ^ 16 = digitsVal F := by omega
      have hpad2 : (padLeftZeros 16 (natStr (c₂ % 10 ^ 16))).data = F := by
        rw [hmod2]
        exact pad16_roundtrip F hFlen hFdig
      have hint2 : (natStr (c₂ / 10 ^ 16)).data = I := by
        rw [hdiv2, hIval]
      have hFz : F.getLast? ≠ some '0' := by
        intro hcon
        apply hz
        rw [hF0]
        rw [List.getLast?_append_of_ne_nil I (by simp : ('.' :: F : List Char) ≠ [])]
        rw [show ('.' :: F : List Char) = ['.'] ++ F from rfl]
        rw [List.getLast?_append_of_ne_nil ['.'] hFne]
        exact hcon
      have hbuild2 : buildLit (md5hex (uid ++ name)) lit c₂ = lit := by
        apply string_ext
        rw [buildLit_eq]
        show (natStr (c₂ / 10 ^ 16)).data ++ '.' ::
            (let B := (padLeftZeros 16 (natStr (c₂ % 10 ^ 16))).data
             let oF := ((splitFirstDot lit.data).2).getD []
             let tz := min 16 (trailZeros oF)
             if oF.getLast? = some '0'
             then B.take (16 - tz) ++ (repTake (digitsStream (md5hex (uid ++ name))) tz).data
             else B) = lit.data
        simp only [hsplit2, Option.getD_some]
        rw [if_neg hFz, hint2, hpad2, hF0]
      have hstr : strDec16 c₂ = lit := by
        unfold strDec16
        rw [if_pos hbig2]
        apply string_ext
        rw [formatF16_data, hint2, hpad2, hF0]
      rw [repl_eq_of_parse uid name lit ⟨c₂, -16⟩ hparse]
      rw [hnew]
      show ReplRes.ok (buildLit (md5hex (uid ++ name)) lit c₂)
          ((strDec16 c₂ != lit) || (buildLit (md5hex (uid ++ name)) lit c₂ != lit)) = .ok lit false
      rw [hbuild2, hstr]
      simp

set_option maxRecDepth 40000 in
/-- Witness for C5 (amended) at the spec example pair `uid="abc"`,
`"y": 2.00`: the first pass yields `2.0000000000000006` and the second pass
returns it unchanged with flag false. -/
theorem C5_second_pass_stable_witness :
    repl "abc" "y" "2.0000000000000006" = .ok "2.0000000000000006" false :=
  C5_second_pass_stable "abc" "y" "2.00" "2.0000000000000006" true (by decide) (by decide)
    (fun d₂ hd => by
      have he : parseDecLit "2.0000000000000006" = some (⟨20000000000000006, -16⟩ : Dec) := by
        decide
      rw [he] at hd
      have := Option.some.inj hd
      rw [← this]
      decide)

/-! ### Claim C4: exact-arithmetic characterization of the quantize pipeline -/

/-- Exact value of a `Dec`. -/
def decVal (d : Dec) : ℚ := (d.c : ℚ) * 10 ^ d.e

/-- Round-half-even on rationals, to an integer (the claim's rounding mode). -/
def rheQ (x : ℚ) : ℤ :=
  if x - ⌊x⌋ < 1 / 2 then ⌊x⌋
  else if 1 / 2 < x - ⌊x⌋ then ⌊x⌋ + 1
  else if ⌊x⌋ % 2 = 0 then ⌊x⌋ else ⌊x⌋ + 1

/-- The claim's exact quantization: round the exact rational to 16 decimal
places with half-even rounding; `none` when the resulting coefficient would
exceed the precision-40 context. -/
def quantizeSpec (q : ℚ) : Option Dec :=
  let z := rheQ (q * 10 ^ 16)
  if z.toNat < 10 ^ 40 then some ⟨z.toNat, -16⟩ else none

theorem rheDiv_le_div_succ (a b : Nat) : rheDiv a b ≤ a / b + 1 := by
  unfold rheDiv
  dsimp only
  split_ifs <;> omega

theorem div_le_rheDiv (a b : Nat) : a / b ≤ rheDiv a b := by
  unfold rheDiv
  dsimp only
  split_ifs <;> omega

theorem rheDiv_zero_of (r b : Nat) (hb : 0 < b) (h : 2 * r ≤ b) : rheDiv r b = 0 := by
  have hrb : r < b := by omega
  unfold rheDiv
  have hq : r / b = 0 := Nat.div_eq_of_lt hrb
  have hm : r % b = r := Nat.mod_eq_of_lt hrb
  dsimp only
  rw [hq, hm]
  split_ifs <;> omega

theorem rheDiv_mul_add (u b r : Nat) (hb : 0 < b) (hu : u % 2 = 0) :
    rheDiv (u * b + r) b = u + rheDiv r b := by
  unfold rheDiv
  have hd : (u * b + r) / b = u + r / b := by
    rw [mul_comm, Nat.mul_add_div hb]
  have hm : (u * b + r) % b = r % b := by
    rw [mul_comm]
    exact Nat.mul_add_mod b u r
  dsimp only
  rw [hd, hm]
  split_ifs <;> omega

theorem two_rheDiv_le (a b : Nat) (hb : 0 < b) : 2 * rheDiv a b ≤ 2 * a / b + 1 := by
  have hab : b * (a / b) + a % b = a := Nat.div_add_mod a b
  have h2a : 2 * a = b * (2 * (a / b)) + 2 * (a % b) := by
    have hcm : b * (2 * (a / b)) = 2 * (b * (a / b)) := by ring
    rw [hcm]
    omega
  have hd : 2 * a / b = 2 * (a / b) + 2 * (a % b) / b := by
    conv_lhs => rw [h2a]
    rw [Nat.mul_add_div hb]
  have h1 : b ≤ 2 * (a % b) → 1 ≤ 2 * (a % b) / b := by
    intro h
    exact (Nat.le_div_iff_mul_le hb).mpr (by omega)
  unfold rheDiv
  dsimp only
  rw [hd]
  generalize hg : 2 * (a % b) / b = g at h1 ⊢
  split_ifs with h2 h3 h4
  · omega
  · have := h1 (by omega)
    omega
  · omega
  · have := h1 (by omega)
    omega

theorem excessAux_spec : ∀ f A, A ≤ f →
    (A < P40 → excessAux f A = 0) ∧
    (P40 ≤ A → 1 ≤ excessAux f A ∧ 10 ^ (39 + excessAux f A) ≤ A ∧ A < 10 ^ (40 + excessAux f A)) := by
  intro f
  induction f with
  | zero =>
    intro A hA
    have : A = 0 := by omega
    subst this
    constructor
    · intro _; rfl
    · intro h
      have : (0:Nat) < P40 := by
        show (0:Nat) < 10 ^ 40
        positivity
      omega
  | succ f ih =>
    intro A hA
    constructor
    · intro h
      show (if A < P40 then 0 else excessAux f (A / 10) + 1) = 0
      rw [if_pos h]
    · intro h
      have hpos : 0 < A := by
        have : (0:Nat) < P40 := by show (0:Nat) < 10 ^ 40; positivity
        omega
      have hstep : excessAux (f + 1) A = excessAux f (A / 10) + 1 := by
        show (if A < P40 then 0 else excessAux f (A / 10) + 1) = _
        rw [if_neg (by omega)]
      have hdiv : A / 10 ≤ f := by
        have : A / 10 < A := Nat.div_lt_self hpos (by omega)
        omega
      have hmod : A = A / 10 * 10 + A % 10 := by omega
      obtain ⟨ih0, ih1⟩ := ih (A / 10) hdiv
      rw [hstep]
      by_cases hcase : A / 10 < P40
      · have ht0 : excessAux f (A / 10) = 0 := ih0 hcase
        rw [ht0]
        refine ⟨by omega, ?_, ?_⟩
        · show 10 ^ 40 ≤ A
          exact h
        · show A < 10 ^ 41
          have h1 : A / 10 < 10 ^ 40 := hcase
          omega
      · have hge : P40 ≤ A / 10 := by omega
        obtain ⟨he1, helow, hehigh⟩ := ih1 hge
        refine ⟨by omega, ?_, ?_⟩
        · have : 10 ^ (39 + excessAux f (A / 10)) * 10 ≤ A / 10 * 10 := by
            exact Nat.mul_le_mul_right 10 helow
          calc 10 ^ (39 + (excessAux f (A / 10) + 1))
              = 10 ^ (39 + excessAux f (A / 10)) * 10 := by ring
          _ ≤ A / 10 * 10 := this
          _ ≤ A := by omega
        · have h1 : A / 10 ≤ 10 ^ (40 + excessAux f (A / 10)) - 1 := by omega
          calc A = A / 10 * 10 + A % 10 := hmod
          _ ≤ (10 ^ (40 + excessAux f (A / 10)) - 1) * 10 + 9 := by
              have h2 : A % 10 ≤ 9 := by omega
              have h3 : A / 10 * 10 ≤ (10 ^ (40 + excessAux f (A / 10)) - 1) * 10 :=
                Nat.mul_le_mul_right 10 h1
              omega
          _ < 10 ^ (40 + (excessAux f (A / 10) + 1)) := by
              have h4 : (0:Nat) < 10 ^ (40 + excessAux f (A / 10)) := by positivity
              have h5 : (10:Nat) ^ (40 + (excessAux f (A / 10) + 1))
                  = 10 ^ (40 + excessAux f (A / 10)) * 10 := by ring
              omega

theorem excess_spec (A : Nat) (h : P40 ≤ A) :
    1 ≤ excess A ∧ 10 ^ (39 + excess A) ≤ A ∧ A < 10 ^ (40 + excess A) :=
  (excessAux_spec A A (le_refl A)).2 h

theorem quantize16_low (cc : Nat) (e : Int) (he : e < -16) :
    quantize16 ⟨cc, e⟩
      = (if rheDiv cc (10 ^ (-e - 16).toNat) < P40
         then some ⟨rheDiv cc (10 ^ (-e - 16).toNat), -16⟩ else none) := by
  unfold quantize16
  dsimp only
  have hne : ¬ ((-16 : Int) ≤ e) := by omega
  rw [if_neg hne]

theorem quantize16_high (cc : Nat) (e : Int) (he : (-16 : Int) ≤ e) :
    quantize16 ⟨cc, e⟩
      = (if cc * 10 ^ (e + 16).toNat < P40
         then some ⟨cc * 10 ^ (e + 16).toNat, -16⟩ else none) := by
  unfold quantize16
  dsimp only
  rw [if_pos he]

theorem decAdd40_eq (c k m' w : Nat) (hk : k ≤ 15) (hw1 : 18 ≤ w) (hw2 : w ≤ 20) :
    decAdd40 ⟨c, -(k : Int)⟩ ⟨m', -(w : Int)⟩
      = roundTo40 (c * 10 ^ (w - k) + m') (-(w : Int)) := by
  unfold decAdd40
  dsimp only
  have hmin : min (-(k : Int)) (-(w : Int)) = -(w : Int) := by omega
  rw [hmin]
  have h1 : ((-(k : Int)) - (-(w : Int))).toNat = w - k := by omega
  have h2 : ((-(w : Int)) - (-(w : Int))).toNat = 0 := by omega
  rw [h1, h2, pow_zero, mul_one]

theorem decAdd40_zero (c k : Nat) :
    decAdd40 ⟨c, -(k : Int)⟩ ⟨0, 0⟩ = roundTo40 c (-(k : Int)) := by
  unfold decAdd40
  dsimp only
  have hmin : min (-(k : Int)) (0 : Int) = -(k : Int) := by omega
  rw [hmin]
  have h1 : ((-(k : Int)) - (-(k : Int))).toNat = 0 := by omega
  rw [h1, pow_zero, mul_one]
  have h2 : (0 : Nat) * 10 ^ ((0 : Int) - (-(k : Int))).toNat = 0 := by ring
  rw [h2, add_zero]

/-- Core lemma: adding the (normalized) jitter at context precision 40 and
then quantizing to 16 places yields exactly the original value extended to
16 fraction digits — the jitter is always rounded away — with
`InvalidOperation` exactly when the quantized coefficient would need more
than 40 digits.  `z` is the number of trailing zeros stripped from
`m = h % 1000` by the exact division, `m'` the stripped coefficient. -/
theorem code_add_quantize (c k m' z : Nat) (hk : k ≤ 15) (hz : z ≤ 2)
    (hm' : 2 * m' < 10 ^ (4 - z)) :
    quantize16 (roundTo40 (c * 10 ^ (20 - z - k) + m') (-((20 - z : Nat) : Int)))
      = if c * 10 ^ (16 - k) < 10 ^ 40 then some ⟨c * 10 ^ (16 - k), -16⟩ else none := by
  set X := c * 10 ^ (16 - k) with hX
  have hXA : c * 10 ^ (20 - z - k) = X * 10 ^ (4 - z) := by
    rw [hX, mul_assoc, ← pow_add]
    congr 2
    omega
  set A := c * 10 ^ (20 - z - k) + m' with hA
  have hm'lt : m' < 10 ^ (4 - z) := by omega
  have hXeven : X % 2 = 0 := by
    have h1 : X = c * 10 ^ (15 - k) * 10 := by
      rw [hX, mul_assoc, ← pow_succ]
      congr 2
      omega
    omega
  have hP40 : P40 = 10 ^ 40 := rfl
  unfold roundTo40
  by_cases hA40 : A < P40
  · rw [if_pos hA40]
    have hlow : (-((20 - z : Nat) : Int)) < -16 := by omega
    rw [quantize16_low A _ hlow]
    have hsh : (-(-((20 - z : Nat) : Int)) - 16).toNat = 4 - z := by omega
    rw [hsh]
    have hdecomp : rheDiv A (10 ^ (4 - z)) = X := by
      rw [hA, hXA]
      rw [rheDiv_mul_add X (10 ^ (4 - z)) m' (by positivity) hXeven]
      rw [rheDiv_zero_of m' (10 ^ (4 - z)) (by positivity) (by omega)]
      omega
    rw [hdecomp, hP40]

  · rw [if_neg hA40]
    dsimp only
    set t := excess A with ht
    obtain ⟨ht1, htlow, hthigh⟩ := excess_spec A (by omega)
    rw [← ht] at ht1 htlow hthigh
    by_cases hX40 : X < 10 ^ 40
    · have hAup : A < 10 ^ (44 - z) := by
        have h1 : A = X * 10 ^ (4 - z) + m' := by rw [hA, hXA]
        have h2 : (X + 1) * 10 ^ (4 - z) = X * 10 ^ (4 - z) + 10 ^ (4 - z) := by ring
        have h3 : (X + 1) * 10 ^ (4 - z) ≤ 10 ^ 40 * 10 ^ (4 - z) :=
          Nat.mul_le_mul_right _ (by omega)
        have h4 : (10:Nat) ^ 40 * 10 ^ (4 - z) = 10 ^ (44 - z) := by
          rw [← pow_add]; congr 1; omega
        omega
      have htle : t ≤ 4 - z := by
        by_contra hcon
        push_neg at hcon
        have h5 : 44 - z ≤ 39 + t := by omega
        have h6 : (10:Nat) ^ (44 - z) ≤ 10 ^ (39 + t) := Nat.pow_le_pow_right (by omega) h5
        omega
      set w := 4 - z - t with hw
      have hwt : (10:Nat) ^ (4 - z) = 10 ^ w * 10 ^ t := by rw [← pow_add]; congr 1; omega
      have hdecompA : A = (X * 10 ^ w) * 10 ^ t + m' := by rw [hA, hXA, hwt]; ring
      have hueven : (X * 10 ^ w) % 2 = 0 := by
        rw [Nat.mul_mod, hXeven]
        simp
      have hC : rheDiv A (10 ^ t) = X * 10 ^ w + rheDiv m' (10 ^ t) := by
        rw [hdecompA]
        exact rheDiv_mul_add _ _ _ (by positivity) hueven
      have hrr2 : 2 * rheDiv m' (10 ^ t) ≤ 10 ^ w := by
        have h1 := two_rheDiv_le m' (10 ^ t) (by positivity)
        have h3 : 2 * m' < 10 ^ w * 10 ^ t := by rw [← hwt]; exact hm'
        have h3' : 2 * m' < 10 ^ t * 10 ^ w := by
          rw [mul_comm ((10:Nat) ^ t) (10 ^ w)]
          exact h3
        have h4 : 2 * m' / 10 ^ t < 10 ^ w := Nat.div_lt_of_lt_mul h3'
        omega
      have hXw40 : X * 10 ^ w < 10 ^ 40 := by
        have h1 : (X * 10 ^ w) * 10 ^ t < 10 ^ 40 * 10 ^ t := by
          calc (X * 10 ^ w) * 10 ^ t ≤ A := by rw [hdecompA]; omega
          _ < 10 ^ (40 + t) := hthigh
          _ = 10 ^ 40 * 10 ^ t := by rw [pow_add]
        exact Nat.lt_of_mul_lt_mul_right h1
      have hCP : rheDiv A (10 ^ t) < P40 := by
        rw [hP40]
        rcases Nat.eq_zero_or_pos w with hw0 | hwpos
        · have hr0 : rheDiv m' (10 ^ t) = 0 := by
            rw [hw0, pow_zero] at hrr2
            omega
          rw [hC, hr0, hw0, pow_zero, mul_one, add_zero]
          exact hX40
        · have hdvd : (10:Nat) ^ w ∣ 10 ^ 40 := pow_dvd_pow 10 (by omega)
          have hXle : X * 10 ^ w + 10 ^ w ≤ 10 ^ 40 := by
            have hD : (10:Nat) ^ 40 = (10 ^ 40 / 10 ^ w) * 10 ^ w := (Nat.div_mul_cancel hdvd).symm
            have h4 : X < 10 ^ 40 / 10 ^ w := by
              by_contra hcon
              push_neg at hcon
              have h5 : (10 ^ 40 / 10 ^ w) * 10 ^ w ≤ X * 10 ^ w := Nat.mul_le_mul_right _ hcon
              omega
            calc X * 10 ^ w + 10 ^ w = (X + 1) * 10 ^ w := by ring
            _ ≤ (10 ^ 40 / 10 ^ w) * 10 ^ w := Nat.mul_le_mul_right _ h4
            _ = 10 ^ 40 := Nat.div_mul_cancel hdvd
          have hwge : (0:Nat) < 10 ^ w := by positivity
          rw [hC]
          omega
      rw [if_pos hCP]
      rcases Nat.eq_zero_or_pos w with hw0 | hwpos
      · have he16 : (-((20 - z : Nat) : Int)) + (t : Int) = -16 := by omega
        rw [he16]
        rw [quantize16_high _ _ (le_refl _)]
        have hsh0 : ((-16 : Int) + 16).toNat = 0 := by norm_num
        rw [hsh0, pow_zero, mul_one]
        have hr0 : rheDiv m' (10 ^ t) = 0 := by
          rw [hw0, pow_zero] at hrr2
          omega
        rw [hC, hr0, hw0, pow_zero, mul_one, add_zero, hP40]
      · have hlow2 : (-((20 - z : Nat) : Int)) + (t : Int) < -16 := by omega
        rw [quantize16_low _ _ hlow2]
        have hsh2 : (-((-((20 - z : Nat) : Int)) + (t : Int)) - 16).toNat = w := by omega
        rw [hsh2]
        have hfinal : rheDiv (rheDiv A (10 ^ t)) (10 ^ w) = X := by
          rw [hC]
          rw [rheDiv_mul_add X (10 ^ w) _ (by positivity) hXeven]
          rw [rheDiv_zero_of _ _ (by positivity) hrr2]
          omega
        rw [hfinal, hP40]
    · have hXA_ge : 10 ^ (44 - z) ≤ A := by
        have h1 : (10:Nat) ^ (44 - z) = 10 ^ 40 * 10 ^ (4 - z) := by
          rw [← pow_add]; congr 1; omega
        have h2 : 10 ^ 40 * 10 ^ (4 - z) ≤ X * 10 ^ (4 - z) := Nat.mul_le_mul_right _ (by omega)
        have h3 : X * 10 ^ (4 - z) ≤ A := by rw [hA, hXA]; omega
        omega
      have htgt : 4 - z < t := by
        by_contra hcon
        push_neg at hcon
        have h1 : 40 + t ≤ 44 - z := by omega
        have h2 : (10:Nat) ^ (40 + t) ≤ 10 ^ (44 - z) := Nat.pow_le_pow_right (by omega) h1
        omega
      have hClow : 10 ^ 39 ≤ rheDiv A (10 ^ t) := by
        have h1 : (10:Nat) ^ 39 * 10 ^ t ≤ A := by
          have he : (10:Nat) ^ 39 * 10 ^ t = 10 ^ (39 + t) := by rw [← pow_add]
          omega
        have h2 : (10:Nat) ^ 39 ≤ A / 10 ^ t := (Nat.le_div_iff_mul_le (by positivity)).mpr h1
        have h3 := div_le_rheDiv A (10 ^ t)
        omega
      have hChigh : rheDiv A (10 ^ t) ≤ 10 ^ 40 := by
        have h1 : A / 10 ^ t < 10 ^ 40 := by
          apply Nat.div_lt_of_lt_mul
          have he : (10:Nat) ^ 40 * 10 ^ t = 10 ^ (40 + t) := by rw [← pow_add]
          omega
        have h2 := rheDiv_le_div_succ A (10 ^ t)
        omega
      by_cases hCP : rheDiv A (10 ^ t) < P40
      · rw [if_pos hCP]
        have hhe : (-16 : Int) ≤ (-((20 - z : Nat) : Int)) + (t : Int) := by omega
        rw [quantize16_high _ _ hhe]
        have hshc : (((-((20 - z : Nat) : Int)) + (t : Int)) + 16).toNat = t - (4 - z) := by omega
        rw [hshc]
        have hnot : ¬ (rheDiv A (10 ^ t) * 10 ^ (t - (4 - z)) < P40) := by
          rw [hP40]
          have h2 : (10:Nat) ^ 1 ≤ 10 ^ (t - (4 - z)) := Nat.pow_le_pow_right (by omega) (by omega)
          have h3 : (10:Nat) ^ 39 * 10 ^ 1 ≤ rheDiv A (10 ^ t) * 10 ^ (t - (4 - z)) :=
            Nat.mul_le_mul hClow h2
          have h4 : (10:Nat) ^ 39 * 10 ^ 1 = 10 ^ 40 := by rw [← pow_add]
          omega
        rw [if_neg hnot, if_neg hX40]
      · rw [if_neg hCP]
        have hCeq10 : rheDiv A (10 ^ t) / 10 = 10 ^ 39 := by
          have h1 : rheDiv A (10 ^ t) = 10 ^ 40 := by
            rw [hP40] at hCP
            omega
          rw [h1, show (10:Nat) ^ 40 = 10 ^ 39 * 10 from by ring, Nat.mul_div_cancel _ (by omega)]
        have hhe2 : (-16 : Int) ≤ ((-((20 - z : Nat) : Int)) + (t : Int)) + 1 := by omega
        rw [quantize16_high _ _ hhe2]
        have hshc2 : ((((-((20 - z : Nat) : Int)) + (t : Int)) + 1) + 16).toNat
            = t + 1 - (4 - z) := by omega
        rw [hshc2]
        have hnot2 : ¬ (rheDiv A (10 ^ t) / 10 * 10 ^ (t + 1 - (4 - z)) < P40) := by
          rw [hP40, hCeq10]
          have h2 : (10:Nat) ^ 1 ≤ 10 ^ (t + 1 - (4 - z)) := Nat.pow_le_pow_right (by omega) (by omega)
          have h3 : (10:Nat) ^ 39 * 10 ^ 1 ≤ 10 ^ 39 * 10 ^ (t + 1 - (4 - z)) :=
            Nat.mul_le_mul_left _ h2
          have h4 : (10:Nat) ^ 39 * 10 ^ 1 = 10 ^ 40 := by rw [← pow_add]
          omega
        rw [if_neg hnot2, if_neg hX40]

/-- Zero-jitter case (`h % 1000 = 0`): the sum is exact and quantization
extends the value to 16 fraction digits, with the same overflow condition. -/
theorem code_zero_quantize (c k : Nat) (hk : k ≤ 15) :
    quantize16 (roundTo40 c (-(k : Int)))
      = if c * 10 ^ (16 - k) < 10 ^ 40 then some ⟨c * 10 ^ (16 - k), -16⟩ else none := by
  have hP40 : P40 = 10 ^ 40 := rfl
  unfold roundTo40
  by_cases hc40 : c < P40
  · rw [if_pos hc40]
    have hhe : (-16 : Int) ≤ -(k : Int) := by omega
    rw [quantize16_high _ _ hhe]
    have hsh : ((-(k : Int)) + 16).toNat = 16 - k := by omega
    rw [hsh, hP40]
  · rw [if_neg hc40]
    dsimp only
    set t := excess c with ht
    obtain ⟨ht1, htlow, hthigh⟩ := excess_spec c (by omega)
    rw [← ht] at ht1 htlow hthigh
    have hXge : ¬ c * 10 ^ (16 - k) < 10 ^ 40 := by
      push_neg
      calc (10:Nat) ^ 40 ≤ c := by omega
      _ ≤ c * 10 ^ (16 - k) := Nat.le_mul_of_pos_right _ (by positivity)
    have hClow : 10 ^ 39 ≤ rheDiv c (10 ^ t) := by
      have h1 : (10:Nat) ^ 39 * 10 ^ t ≤ c := by
        have he : (10:Nat) ^ 39 * 10 ^ t = 10 ^ (39 + t) := by rw [← pow_add]
        omega
      have h2 : (10:Nat) ^ 39 ≤ c / 10 ^ t := (Nat.le_div_iff_mul_le (by positivity)).mpr h1
      have h3 := div_le_rheDiv c (10 ^ t)
      omega
    by_cases hCP : rheDiv c (10 ^ t) < P40
    · rw [if_pos hCP]
      have hhe : (-16 : Int) ≤ (-(k : Int)) + (t : Int) := by omega
      rw [quantize16_high _ _ hhe]
      have hsh : (((-(k : Int)) + (t : Int)) + 16).toNat = t + 16 - k := by omega
      rw [hsh]
      have hnot : ¬ (rheDiv c (10 ^ t) * 10 ^ (t + 16 - k) < P40) := by
        rw [hP40]
        have h2 : (10:Nat) ^ 1 ≤ 10 ^ (t + 16 - k) := Nat.pow_le_pow_right (by omega) (by omega)
        have h3 : (10:Nat) ^ 39 * 10 ^ 1 ≤ rheDiv c (10 ^ t) * 10 ^ (t + 16 - k) :=
          Nat.mul_le_mul hClow h2
        have h4 : (10:Nat) ^ 39 * 10 ^ 1 = 10 ^ 40 := by rw [← pow_add]
        omega
      rw [if_neg hnot, if_neg hXge]
    · rw [if_neg hCP]
      have hChigh : rheDiv c (10 ^ t) ≤ 10 ^ 40 := by
        have h1 : c / 10 ^ t < 10 ^ 40 := by
          apply Nat.div_lt_of_lt_mul
          have he : (10:Nat) ^ 40 * 10 ^ t = 10 ^ (40 + t) := by rw [← pow_add]
          omega
        have h2 := rheDiv_le_div_succ c (10 ^ t)
        omega
      have hCeq10 : rheDiv c (10 ^ t) / 10 = 10 ^ 39 := by
        have h1 : rheDiv c (10 ^ t) = 10 ^ 40 := by
          rw [hP40] at hCP
          omega
        rw [h1, show (10:Nat) ^ 40 = 10 ^ 39 * 10 from by ring, Nat.mul_div_cancel _ (by omega)]
      have hhe2 : (-16 : Int) ≤ ((-(k : Int)) + (t : Int)) + 1 := by omega
      rw [quantize16_high _ _ hhe2]
      have hsh2 : ((((-(k : Int)) + (t : Int)) + 1) + 16).toNat = t + 17 - k := by omega
      rw [hsh2]
      have hnot2 : ¬ (rheDiv c (10 ^ t) / 10 * 10 ^ (t + 17 - k) < P40) := by
        rw [hP40, hCeq10]
        have h2 : (10:Nat) ^ 1 ≤ 10 ^ (t + 17 - k) := Nat.pow_le_pow_right (by omega) (by omega)
        have h3 : (10:Nat) ^ 39 * 10 ^ 1 ≤ 10 ^ 39 * 10 ^ (t + 17 - k) :=
          Nat.mul_le_mul_left _ h2
        have h4 : (10:Nat) ^ 39 * 10 ^ 1 = 10 ^ 40 := by rw [← pow_add]
        omega
      rw [if_neg hnot2, if_neg hXge]

theorem decVal_neg (c k : Nat) : decVal ⟨c, -(k : Int)⟩ = (c : ℚ) / 10 ^ k := by
  unfold decVal
  dsimp only
  rw [zpow_neg, div_eq_mul_inv]
  congr 1
  rw [zpow_natCast]

theorem rheQ_natCast_add (X : Nat) (r : ℚ) (h0 : 0 ≤ r) (h1 : r < 1 / 2) :
    rheQ ((X : ℚ) + r) = X := by
  have hcast : ((X : ℚ) + r) = ((X : ℤ) : ℚ) + r := by push_cast; ring
  have hfl : ⌊(X : ℚ) + r⌋ = (X : ℤ) := by
    rw [hcast, Int.floor_int_add, Int.floor_eq_zero_iff.mpr ⟨h0, by linarith⟩, add_zero]
  unfold rheQ
  rw [hfl]
  have hsub : (X : ℚ) + r - ((X : ℤ) : ℚ) = r := by push_cast; ring
  rw [hsub, if_pos h1]

theorem rheQ_natDiv (a b : Nat) (hb : 0 < b) : rheQ ((a : ℚ) / b) = rheDiv a b := by
  set q := a / b with hq
  set r := a % b with hr
  have hab : b * q + r = a := Nat.div_add_mod a b
  have hb' : (0 : ℚ) < b := by positivity
  have hx : (a : ℚ) / b = (q : ℚ) + (r : ℚ) / b := by
    field_simp
    push_cast [← hab]
    ring
  have hr0 : (0 : ℚ) ≤ (r : ℚ) / b := by positivity
  have hrlt : (r : ℚ) / b < 1 := by
    rw [div_lt_one hb']
    exact_mod_cast Nat.mod_lt a hb
  have hfl : ⌊(a : ℚ) / b⌋ = (q : ℤ) := by
    rw [hx, show ((q : ℚ) + (r : ℚ) / b) = ((q : ℤ) : ℚ) + (r : ℚ) / b from by push_cast; ring,
      Int.floor_int_add, Int.floor_eq_zero_iff.mpr ⟨hr0, hrlt⟩, add_zero]
  have hsub : (a : ℚ) / b - ((q : ℤ) : ℚ) = (r : ℚ) / b := by
    rw [hx]
    push_cast
    ring
  have hcmp1 : ((r : ℚ) / b < 1 / 2) ↔ 2 * r < b := by
    rw [div_lt_div_iff₀ hb' (by norm_num)]
    constructor
    · intro h
      have : (2 * r : ℚ) < b := by linarith
      exact_mod_cast this
    · intro h
      have : (2 * r : ℚ) < b := by exact_mod_cast h
      push_cast at this
      linarith
  have hcmp2 : (1 / 2 < (r : ℚ) / b) ↔ b < 2 * r := by
    rw [div_lt_div_iff₀ (by norm_num) hb']
    constructor
    · intro h
      have : (b : ℚ) < 2 * r := by linarith
      exact_mod_cast this
    · intro h
      have : (b : ℚ) < 2 * r := by exact_mod_cast h
      push_cast at this
      linarith
  unfold rheQ rheDiv
  dsimp only
  rw [hfl, hsub]
  by_cases h1 : 2 * r < b
  · rw [if_pos (hcmp1.mpr h1), if_pos h1]
  · rw [if_neg (fun hc => h1 (hcmp1.mp hc)), if_neg h1]
    by_cases h2 : b < 2 * r
    · rw [if_pos (hcmp2.mpr h2), if_pos h2]
      omega
    · rw [if_neg (fun hc => h2 (hcmp2.mp hc)), if_neg h2]
      by_cases h3 : q % 2 = 0
      · rw [if_pos (by omega : (q : ℤ) % 2 = 0), if_pos h3]
      · rw [if_neg (by omega : ¬ (q : ℤ) % 2 = 0), if_neg h3]
        omega

theorem quantizeSpec_add (c k m : Nat) (hk : k ≤ 15) (hm : m ≤ 999) :
    quantizeSpec ((c : ℚ) / 10 ^ k + (m : ℚ) / 10 ^ 20)
      = if c * 10 ^ (16 - k) < 10 ^ 40 then some ⟨c * 10 ^ (16 - k), -16⟩ else none := by
  unfold quantizeSpec
  dsimp only
  have hmul : ((c : ℚ) / 10 ^ k + (m : ℚ) / 10 ^ 20) * 10 ^ 16
      = ((c * 10 ^ (16 - k) : Nat) : ℚ) + (m : ℚ) / 10 ^ 4 := by
    push_cast
    have e1 : (10 : ℚ) ^ (16 - k) = 10 ^ 16 / 10 ^ k := by
      rw [eq_div_iff (by positivity), ← pow_add]
      congr 1
      omega
    rw [e1]
    field_simp
    ring
  have hr1 : (m : ℚ) / 10 ^ 4 < 1 / 2 := by
    rw [div_lt_div_iff₀ (by positivity) (by norm_num)]
    have hmq : (m : ℚ) ≤ 999 := by exact_mod_cast hm
    linarith
  rw [hmul, rheQ_natCast_add _ _ (by positivity) hr1, Int.toNat_natCast]

theorem rheDiv_one (a : Nat) : rheDiv a 1 = a := by
  unfold rheDiv
  dsimp only
  rw [if_pos (by omega : 2 * (a % 1) < 1)]
  omega

theorem dec16_branch (c k : Nat) (hk16 : 16 ≤ k) :
    quantize16 ⟨c, -(k : Int)⟩ = quantizeSpec ((c : ℚ) / 10 ^ k) := by
  unfold quantizeSpec
  dsimp only
  have hmul : ((c : ℚ) / 10 ^ k) * 10 ^ 16 = (c : ℚ) / 10 ^ (k - 16) := by
    have e1 : (10 : ℚ) ^ k = 10 ^ (k - 16) * 10 ^ 16 := by
      rw [← pow_add]
      congr 1
      omega
    rw [e1]
    field_simp
    ring
  have hcast : (c : ℚ) / 10 ^ (k - 16) = (c : ℚ) / ((10 ^ (k - 16) : Nat) : ℚ) := by
    push_cast
    ring
  rw [hmul, hcast, rheQ_natDiv c (10 ^ (k - 16)) (by positivity), Int.toNat_natCast]
  by_cases hk : k = 16
  · subst hk
    rw [quantize16_high c _ (by norm_num)]
    have h1 : ((-((16 : Nat) : Int)) + 16).toNat = 0 := by norm_num
    rw [h1, pow_zero, mul_one, rheDiv_one]
    rfl
  · have hklt : -(k : Int) < -16 := by omega
    rw [quantize16_low c _ hklt]
    have hsh : (-(-(k : Int)) - 16).toNat = k - 16 := by omega
    rw [hsh]
    rfl

theorem parseDecLit_e (s : String) (d : Dec) (h : parseDecLit s = some d) :
    d.e = -(decCountS s : Int) := by
  unfold parseDecLit at h
  unfold decCountS
  cases hsp : splitFirstDot s.data with
  | mk ip rest =>
    cases rest with
    | none =>
      rw [hsp] at h
      dsimp only at h
      split_ifs at h with hc
      · cases h
        rfl
    | some fp =>
      rw [hsp] at h
      dsimp only at h
      split_ifs at h with hc
      · cases h
        rfl

theorem jitter_val (m : Nat) : decVal (jitterDec m) = (m : ℚ) / 10 ^ 20 := by
  unfold jitterDec
  split_ifs with h0 h10 h100
  · rw [h0]
    unfold decVal
    simp
  · rw [show ((-20 : Int)) = -((20 : Nat) : Int) from by norm_num, decVal_neg]
  · have hdvd : (10 : Nat) ∣ m := Nat.dvd_of_mod_eq_zero (by omega)
    obtain ⟨u, hu⟩ := hdvd
    rw [show ((-19 : Int)) = -((19 : Nat) : Int) from by norm_num, decVal_neg, hu,
      Nat.mul_div_cancel_left u (by norm_num)]
    push_cast
    rw [div_eq_div_iff (by positivity) (by positivity)]
    ring
  · have hdvd : (100 : Nat) ∣ m := Nat.dvd_of_mod_eq_zero (by omega)
    obtain ⟨u, hu⟩ := hdvd
    rw [show ((-18 : Int)) = -((18 : Nat) : Int) from by norm_num, decVal_neg, hu,
      Nat.mul_div_cancel_left u (by norm_num)]
    push_cast
    rw [div_eq_div_iff (by positivity) (by positivity)]
    ring

theorem hexVal_foldl (l : List Char) : ∀ a : Nat,
    List.foldl (fun a c => a * 16 + hexCharVal c) a l = a * 16 ^ l.length + hexVal l := by
  induction l with
  | nil => intro a; simp [hexVal]
  | cons c t ih =>
    intro a
    have hd : hexVal (c :: t) = hexCharVal c * 16 ^ t.length + hexVal t := by
      show List.foldl _ (0 * 16 + hexCharVal c) t = _
      rw [ih (0 * 16 + hexCharVal c)]
      ring_nf
    show List.foldl _ (a * 16 + hexCharVal c) t = _
    rw [ih (a * 16 + hexCharVal c), hd]
    simp [List.length_cons]
    ring

theorem hexVal_lt (l : List Char) (h : ∀ c ∈ l, hexCharVal c < 16) :
    hexVal l < 16 ^ l.length := by
  induction l with
  | nil => simp [hexVal]
  | cons c t ih =>
    have hc : hexCharVal c < 16 := h c (by simp)
    have ht := ih (fun x hx => h x (by simp [hx]))
    have he : hexVal (c :: t) = hexCharVal c * 16 ^ t.length + hexVal t := by
      show List.foldl _ (0 * 16 + hexCharVal c) t = _
      rw [hexVal_foldl t (0 * 16 + hexCharVal c)]
      ring_nf
    rw [he, List.length_cons, pow_succ]
    nlinarith

theorem hexCharVal_hexDigitChar (v : Nat) (h : v < 16) :
    hexCharVal (hexDigitChar v) < 16 := by
  interval_cases v <;> decide

theorem leBytes_mem_lt (k : Nat) : ∀ n, ∀ b ∈ leBytes k n, b < 256 := by
  induction k with
  | zero => intro n b hb; simp [leBytes] at hb
  | succ k ih =>
    intro n b hb
    rw [leBytes] at hb
    rcases List.mem_cons.mp hb with h | h
    · omega
    · exact ih (n / 256) b h

theorem md5Bytes_mem_lt (msg : List Nat) : ∀ b ∈ md5Bytes msg, b < 256 := by
  intro b hb
  unfold md5Bytes at hb
  simp only [List.mem_append] at hb
  rcases hb with ((h | h) | h) | h <;> exact leBytes_mem_lt 4 _ b h

theorem md5hex_char_lt (s : String) : ∀ c ∈ (md5hex s).data, hexCharVal c < 16 := by
  intro c hc
  unfold md5hex at hc
  simp only [List.mem_flatten, List.mem_map] at hc
  obtain ⟨l, ⟨b, hb, hbl⟩, hcl⟩ := hc
  have hblt : b < 256 := md5Bytes_mem_lt _ b hb
  rw [← hbl] at hcl
  unfold byteHex at hcl
  rcases List.mem_cons.mp hcl with h | h
  · rw [h]
    exact hexCharVal_hexDigitChar _ (Nat.div_lt_of_lt_mul (by omega))
  · rcases List.mem_cons.mp h with h2 | h2
    · rw [h2]
      exact hexCharVal_hexDigitChar _ (Nat.mod_lt b (by omega))
    · simp at h2

theorem hval_lt (s : String) : hval (md5hex s) < 2 ^ 32 := by
  unfold hval
  have h1 := hexVal_lt ((md5hex s).data.take 8)
    (fun c hc => md5hex_char_lt s c (List.mem_of_mem_take hc))
  have h2 : ((md5hex s).data.take 8).length ≤ 8 := by
    simp [List.length_take]
  calc hexVal ((md5hex s).data.take 8) < 16 ^ ((md5hex s).data.take 8).length := h1
  _ ≤ 16 ^ 8 := Nat.pow_le_pow_right (by norm_num) h2
  _ = 2 ^ 32 := by norm_num

/-- C4 (corrected): `h` is computed from the FIRST 8 hex digits of the MD5
digest of `uid+name` (not the low/last 8); it is a 32-bit value; the jitter is
exactly `(h mod 1000) / 10 ^ 20`; when the original literal has fewer than 16
fraction digits the quantize step computes exactly the half-even rounding of
`original + jitter` to 16 decimal places, and when it has 16 or more the
jitter is not added and the result is exactly the half-even rounding of the
original value alone. -/
theorem C4_jitter_arithmetic (uid name s : String) (d : Dec)
    (hp : parseDecLit s = some d) :
    hval (md5hex (uid ++ name)) = hexVal ((md5hex (uid ++ name)).data.take 8) ∧
    hval (md5hex (uid ++ name)) < 2 ^ 32 ∧
    decVal (jitterDec (hval (md5hex (uid ++ name)) % 1000))
      = ((hval (md5hex (uid ++ name)) % 1000 : Nat) : ℚ) / 10 ^ 20 ∧
    (decCountS s < 16 →
      newdOf (md5hex (uid ++ name)) (decCountS s) d
        = quantizeSpec (decVal d
            + ((hval (md5hex (uid ++ name)) % 1000 : Nat) : ℚ) / 10 ^ 20)) ∧
    (16 ≤ decCountS s →
      newdOf (md5hex (uid ++ name)) (decCountS s) d = quantizeSpec (decVal d)) := by
  have he := parseDecLit_e s d hp
  obtain ⟨dc, de⟩ := d
  dsimp only at he
  subst he
  refine ⟨rfl, hval_lt _, jitter_val _, ?_, ?_⟩
  · intro hlt
    set m := hval (md5hex (uid ++ name)) % 1000 with hm
    have hm999 : m ≤ 999 := by omega
    rw [decVal_neg, quantizeSpec_add dc (decCountS s) m (by omega) hm999]
    unfold newdOf
    rw [if_neg (by omega : ¬ 16 ≤ decCountS s)]
    by_cases h0 : m = 0
    · have hj : jitterDec m = ⟨0, 0⟩ := by
        unfold jitterDec
        rw [if_pos h0]
      rw [hj, decAdd40_zero dc (decCountS s)]
      exact code_zero_quantize dc (decCountS s) (by omega)
    · by_cases h10 : m % 10 ≠ 0
      · have hj : jitterDec m = ⟨m, -((20 : Nat) : Int)⟩ := by
          unfold jitterDec
          rw [if_neg h0, if_pos h10]
          norm_num
        rw [hj, decAdd40_eq dc (decCountS s) m 20 (by omega) (by norm_num) (by norm_num)]
        have h4 : (10 : Nat) ^ (4 - 0) = 10000 := by norm_num
        exact code_add_quantize dc (decCountS s) m 0 (by omega) (by omega) (by omega)
      · by_cases h100 : m % 100 ≠ 0
        · have hj : jitterDec m = ⟨m / 10, -((19 : Nat) : Int)⟩ := by
            unfold jitterDec
            rw [if_neg h0, if_neg h10, if_pos h100]
            norm_num
          rw [hj, decAdd40_eq dc (decCountS s) (m / 10) 19 (by omega) (by norm_num)
            (by norm_num)]
          have h4 : (10 : Nat) ^ (4 - 1) = 1000 := by norm_num
          exact code_add_quantize dc (decCountS s) (m / 10) 1 (by omega) (by omega) (by omega)
        · have hj : jitterDec m = ⟨m / 100, -((18 : Nat) : Int)⟩ := by
            unfold jitterDec
            rw [if_neg h0, if_neg h10, if_neg h100]
            norm_num
          rw [hj, decAdd40_eq dc (decCountS s) (m / 100) 18 (by omega) (by norm_num)
            (by norm_num)]
          have h4 : (10 : Nat) ^ (4 - 2) = 100 := by norm_num
          exact code_add_quantize dc (decCountS s) (m / 100) 2 (by omega) (by omega) (by omega)
  · intro hge
    unfold newdOf
    rw [if_pos hge, decVal_neg]
    exact dec16_branch dc (decCountS s) hge

set_option maxRecDepth 40000 in
/-- Witness for C4 at `uid = "abc"`, `name = "x"`, literal `"1.0"`. -/
theorem C4_jitter_arithmetic_witness :
    parseDecLit "1.0" = some ⟨10, -1⟩ ∧
    (hval (md5hex ("abc" ++ "x")) = hexVal ((md5hex ("abc" ++ "x")).data.take 8) ∧
     hval (md5hex ("abc" ++ "x")) < 2 ^ 32 ∧
     decVal (jitterDec (hval (md5hex ("abc" ++ "x")) % 1000))
       = ((hval (md5hex ("abc" ++ "x")) % 1000 : Nat) : ℚ) / 10 ^ 20 ∧
     (decCountS "1.0" < 16 →
       newdOf (md5hex ("abc" ++ "x")) (decCountS "1.0") ⟨10, -1⟩
         = quantizeSpec (decVal ⟨10, -1⟩
             + ((hval (md5hex ("abc" ++ "x")) % 1000 : Nat) : ℚ) / 10 ^ 20)) ∧
     (16 ≤ decCountS "1.0" →
       newdOf (md5hex ("abc" ++ "x")) (decCountS "1.0") ⟨10, -1⟩
         = quantizeSpec (decVal ⟨10, -1⟩))) :=
  ⟨by decide, C4_jitter_arithmetic "abc" "x" "1.0" ⟨10, -1⟩ (by decide)⟩

set_option maxRecDepth 40000 in
/-- The digest has 32 hex digits; `h` is the value of the first 8, which
differs from the value of the low (last) 8 — refuting the claim's "low 8 hex
digits" at `uid = "abc"`, `name = "x"`. -/
theorem C4_counterexample :
    (md5hex ("abc" ++ "x")).data.length = 32 ∧
    hval (md5hex ("abc" ++ "x")) = hexVal ((md5hex ("abc" ++ "x")).data.take 8) ∧
    hval (md5hex ("abc" ++ "x")) ≠ hexVal ((md5hex ("abc" ++ "x")).data.drop 24) := by
  refine ⟨by decide, rfl, by decide⟩

/-! ### Claim C3: the bracket scanner of `sort_layer_markers.py`

`find_first_top_level_array` is embedded as a step function on the scanner
state (the five lexical flags, the escape flag, the bracket depth, and the
recorded start position) plus a fuel-indexed driver over the character list,
mirroring the Python `while` loop with its one- or two-character advances. -/

def sqChar : Char := Char.ofNat 39

def bqChar : Char := Char.ofNat 96

structure ScanSt where
  sgl : Bool
  dbl : Bool
  tpl : Bool
  lineC : Bool
  blockC : Bool
  esc : Bool
  depth : Nat
  start : Option Nat

inductive ScanRes where
  | ret (p : Nat × Nat)
  | go (adv2 : Bool) (st : ScanSt)

/-- One iteration of the scanner loop body: `ch` is `s[i]`, `nxt` is
`s[i+1]` when present.  `.go true _` models the branches that do `i += 1`
inside the body (so the loop advances two characters). -/
def scanStep (st : ScanSt) (ch : Char) (nxt : Option Char) (i : Nat) : ScanRes :=
  if st.lineC then
    .go false (if ch = '\n' then { st with lineC := false } else st)
  else if st.blockC then
    if ch = '*' ∧ nxt = some '/' then .go true { st with blockC := false }
    else .go false st
  else if st.sgl then
    .go false { st with
      sgl := if st.esc = false ∧ ch = sqChar then false else st.sgl,
      esc := (ch == '\\') && !st.esc }
  else if st.dbl then
    .go false { st with
      dbl := if st.esc = false ∧ ch = '"' then false else st.dbl,
      esc := (ch == '\\') && !st.esc }
  else if st.tpl then
    .go false { st with
      tpl := if st.esc = false ∧ ch = bqChar then false else st.tpl,
      esc := (ch == '\\') && !st.esc }
  else if ch = '/' ∧ nxt = some '/' then .go true { st with lineC := true }
  else if ch = '/' ∧ nxt = some '*' then .go true { st with blockC := true }
  else if ch = sqChar then .go false { st with sgl := true }
  else if ch = '"' then .go false { st with dbl := true }
  else if ch = bqChar then .go false { st with tpl := true }
  else if ch = '[' then
    .go false { st with depth := st.depth + 1,
                        start := if st.depth = 0 then some i else st.start }
  else if ch = ']' then
    if 0 < st.depth then
      if st.depth - 1 = 0 then
        match st.start with
        | some a => .ret (a, i)
        | none => .go false { st with depth := st.depth - 1 }
      else .go false { st with depth := st.depth - 1 }
    else .go false st
  else .go false st

/-- The scanner loop; fuel bounds the number of iterations (each iteration
consumes at least one character, so `s.length` fuel suffices). -/
def ffAux : Nat → List Char → Nat → ScanSt → Option (Nat × Nat)
  | 0, _, _, _ => none
  | _ + 1, [], _, _ => none
  | f + 1, ch :: rest, i, st =>
    match scanStep st ch rest.head? i with
    | .ret p => some p
    | .go adv2 st' =>
      if adv2 then ffAux f rest.tail (i + 2) st' else ffAux f rest (i + 1) st'

def scanInit : ScanSt := ⟨false, false, false, false, false, false, 0, none⟩

/-- `find_first_top_level_array(s)`: `some (start, end)` or `None`. -/
def find_first_top_level_array (s : String) : Option (Nat × Nat) :=
  ffAux s.data.length s.data 0 scanInit

theorem scanStep_opaque (st : ScanSt) (ch : Char) (nxt : Option Char) (i : Nat)
    (h : st.sgl = true ∨ st.dbl = true ∨ st.tpl = true ∨ st.lineC = true ∨ st.blockC = true) :
    ∃ adv2 st', scanStep st ch nxt i = .go adv2 st' ∧
      st'.depth = st.depth ∧ st'.start = st.start := by
  unfold scanStep
  by_cases h1 : st.lineC = true
  · rw [if_pos h1]
    by_cases hc : ch = '\n'
    · rw [if_pos hc]
      exact ⟨false, _, rfl, rfl, rfl⟩
    · rw [if_neg hc]
      exact ⟨false, _, rfl, rfl, rfl⟩
  · rw [if_neg h1]
    by_cases h2 : st.blockC = true
    · rw [if_pos h2]
      by_cases hc : ch = '*' ∧ nxt = some '/'
      · rw [if_pos hc]
        exact ⟨true, _, rfl, rfl, rfl⟩
      · rw [if_neg hc]
        exact ⟨false, _, rfl, rfl, rfl⟩
    · rw [if_neg h2]
      by_cases h3 : st.sgl = true
      · rw [if_pos h3]
        exact ⟨false, _, rfl, rfl, rfl⟩
      · rw [if_neg h3]
        by_cases h4 : st.dbl = true
        · rw [if_pos h4]
          exact ⟨false, _, rfl, rfl, rfl⟩
        · rw [if_neg h4]
          by_cases h5 : st.tpl = true
          · rw [if_pos h5]
            exact ⟨false, _, rfl, rfl, rfl⟩
          · rcases h with h | h | h | h | h <;> simp_all

theorem scanStep_go_start (st : ScanSt) (ch : Char) (nxt : Option Char) (i : Nat)
    (adv2 : Bool) (st' : ScanSt) (h : scanStep st ch nxt i = .go adv2 st') :
    st'.start = st.start ∨
      (st.sgl = false ∧ st.dbl = false ∧ st.tpl = false ∧ st.lineC = false ∧
       st.blockC = false ∧ st.depth = 0 ∧ ch = '[' ∧ st'.start = some i) := by
  unfold scanStep at h
  by_cases h1 : st.lineC = true
  · rw [if_pos h1] at h
    injection h with ha hst
    subst hst
    by_cases hc : ch = '\n'
    · rw [if_pos hc]
      exact Or.inl rfl
    · rw [if_neg hc]
      exact Or.inl rfl
  · rw [if_neg h1] at h
    by_cases h2 : st.blockC = true
    · rw [if_pos h2] at h
      by_cases hc : ch = '*' ∧ nxt = some '/'
      · rw [if_pos hc] at h
        injection h with ha hst
        subst hst
        exact Or.inl rfl
      · rw [if_neg hc] at h
        injection h with ha hst
        subst hst
        exact Or.inl rfl
    · rw [if_neg h2] at h
      by_cases h3 : st.sgl = true
      · rw [if_pos h3] at h
        injection h with ha hst
        subst hst
        exact Or.inl rfl
      · rw [if_neg h3] at h
        by_cases h4 : st.dbl = true
        · rw [if_pos h4] at h
          injection h with ha hst
          subst hst
          exact Or.inl rfl
        · rw [if_neg h4] at h
          by_cases h5 : st.tpl = true
          · rw [if_pos h5] at h
            injection h with ha hst
            subst hst
            exact Or.inl rfl
          · rw [if_neg h5] at h
            by_cases h6 : ch = '/' ∧ nxt = some '/'
            · rw [if_pos h6] at h
              injection h with ha hst
              subst hst
              exact Or.inl rfl
            · rw [if_neg h6] at h
              by_cases h7 : ch = '/' ∧ nxt = some '*'
              · rw [if_pos h7] at h
                injection h with ha hst
                subst hst
                exact Or.inl rfl
              · rw [if_neg h7] at h
                by_cases h8 : ch = sqChar
                · rw [if_pos h8] at h
                  injection h with ha hst
                  subst hst
                  exact Or.inl rfl
                · rw [if_neg h8] at h
                  by_cases h9 : ch = '"'
                  · rw [if_pos h9] at h
                    injection h with ha hst
                    subst hst
                    exact Or.inl rfl
                  · rw [if_neg h9] at h
                    by_cases h10 : ch = bqChar
                    · rw [if_pos h10] at h
                      injection h with ha hst
                      subst hst
                      exact Or.inl rfl
                    · rw [if_neg h10] at h
                      by_cases h11 : ch = '['
                      · rw [if_pos h11] at h
                        injection h with ha hst
                        subst hst
                        by_cases hd : st.depth = 0
                        · refine Or.inr ⟨?_, ?_, ?_, ?_, ?_, hd, h11, ?_⟩
                          · simp_all
                          · simp_all
                          · simp_all
                          · simp_all
                          · simp_all
                          · show (if st.depth = 0 then some i else st.start) = some i
                            rw [if_pos hd]
                        · refine Or.inl ?_
                          show (if st.depth = 0 then some i else st.start) = st.start
                          rw [if_neg hd]
                      · rw [if_neg h11] at h
                        by_cases h12 : ch = ']'
                        · rw [if_pos h12] at h
                          by_cases hd : 0 < st.depth
                          · rw [if_pos hd] at h
                            by_cases hd1 : st.depth - 1 = 0
                            · rw [if_pos hd1] at h
                              cases hs : st.start with
                              | some a0 =>
                                rw [hs] at h
                                exact ScanRes.noConfusion h
                              | none =>
                                rw [hs] at h
                                injection h with ha hst
                                subst hst
                                exact Or.inl rfl
                            · rw [if_neg hd1] at h
                              injection h with ha hst
                              subst hst
                              exact Or.inl rfl
                          · rw [if_neg hd] at h
                            injection h with ha hst
                            subst hst
                            exact Or.inl rfl
                        · rw [if_neg h12] at h
                          injection h with ha hst
                          subst hst
                          exact Or.inl rfl

theorem scanStep_ret (st : ScanSt) (ch : Char) (nxt : Option Char) (i a b : Nat)
    (h : scanStep st ch nxt i = .ret (a, b)) :
    st.sgl = false ∧ st.dbl = false ∧ st.tpl = false ∧ st.lineC = false ∧
    st.blockC = false ∧ st.depth = 1 ∧ ch = ']' ∧ st.start = some a ∧ b = i := by
  unfold scanStep at h
  by_cases h1 : st.lineC = true
  · rw [if_pos h1] at h
    exact ScanRes.noConfusion h
  · rw [if_neg h1] at h
    by_cases h2 : st.blockC = true
    · rw [if_pos h2] at h
      by_cases hc : ch = '*' ∧ nxt = some '/'
      · rw [if_pos hc] at h
        exact ScanRes.noConfusion h
      · rw [if_neg hc] at h
        exact ScanRes.noConfusion h
    · rw [if_neg h2] at h
      by_cases h3 : st.sgl = true
      · rw [if_pos h3] at h
        exact ScanRes.noConfusion h
      · rw [if_neg h3] at h
        by_cases h4 : st.dbl = true
        · rw [if_pos h4] at h
          exact ScanRes.noConfusion h
        · rw [if_neg h4] at h
          by_cases h5 : st.tpl = true
          · rw [if_pos h5] at h
            exact ScanRes.noConfusion h
          · rw [if_neg h5] at h
            by_cases h6 : ch = '/' ∧ nxt = some '/'
            · rw [if_pos h6] at h
              exact ScanRes.noConfusion h
            · rw [if_neg h6] at h
              by_cases h7 : ch = '/' ∧ nxt = some '*'
              · rw [if_pos h7] at h
                exact ScanRes.noConfusion h
              · rw [if_neg h7] at h
                by_cases h8 : ch = sqChar
                · rw [if_pos h8] at h
                  exact ScanRes.noConfusion h
                · rw [if_neg h8] at h
                  by_cases h9 : ch = '"'
                  · rw [if_pos h9] at h
                    exact ScanRes.noConfusion h
                  · rw [if_neg h9] at h
                    by_cases h10 : ch = bqChar
                    · rw [if_pos h10] at h
                      exact ScanRes.noConfusion h
                    · rw [if_neg h10] at h
                      by_cases h11 : ch = '['
                      · rw [if_pos h11] at h
                        exact ScanRes.noConfusion h
                      · rw [if_neg h11] at h
                        by_cases h12 : ch = ']'
                        · rw [if_pos h12] at h
                          by_cases hd : 0 < st.depth
                          · rw [if_pos hd] at h
                            by_cases hd1 : st.depth - 1 = 0
                            · rw [if_pos hd1] at h
                              cases hs : st.start with
                              | some a0 =>
                                rw [hs] at h
                                injection h with hp
                                have ha : a0 = a := congrArg Prod.fst hp
                                have hb : i = b := congrArg Prod.snd hp
                                refine ⟨by simp_all, by simp_all, by simp_all, by simp_all,
                                  by simp_all, by omega, h12, ?_, hb.symm⟩
                                exact congrArg some ha
                              | none =>
                                rw [hs] at h
                                exact ScanRes.noConfusion h
                            · rw [if_neg hd1] at h
                              exact ScanRes.noConfusion h
                          · rw [if_neg hd] at h
                            exact ScanRes.noConfusion h
                        · rw [if_neg h12] at h
                          exact ScanRes.noConfusion h

theorem ffAux_spec (s : List Char) : ∀ (f : Nat) (l : List Char) (i : Nat) (st : ScanSt),
    l = s.drop i →
    (∀ a, st.start = some a → a < i ∧ s[a]? = some '[') →
    ∀ a b, ffAux f l i st = some (a, b) →
      a < b ∧ s[a]? = some '[' ∧ s[b]? = some ']' := by
  intro f
  induction f with
  | zero =>
    intro l i st hl hinv a b h
    simp [ffAux] at h
  | succ f ih =>
    intro l i st hl hinv a b h
    cases l with
    | nil => simp [ffAux] at h
    | cons ch rest =>
      have hchi : s[i]? = some ch := by
        have h0 : (s.drop i)[0]? = some ch := by
          rw [← hl]
          simp
        rw [List.getElem?_drop] at h0
        simpa using h0
      have hrest : rest = s.drop (i + 1) := by
        have ht : (s.drop i).tail = s.drop (i + 1) := List.tail_drop s i
        rw [← hl] at ht
        simpa using ht
      have h' : (match scanStep st ch rest.head? i with
        | .ret p => some p
        | .go adv2 st' =>
          if adv2 then ffAux f rest.tail (i + 2) st'
          else ffAux f rest (i + 1) st') = some (a, b) := h
      cases hstep : scanStep st ch rest.head? i with
      | ret p =>
        rw [hstep] at h'
        have hp : some p = some (a, b) := h'
        injection hp with hp2
        obtain ⟨hsgl, hdbl, htpl, hlc, hbc, hdep, hch, hsa, hbi⟩ :=
          scanStep_ret st ch rest.head? i p.1 p.2 (by rw [hstep])
        subst hp2
        have hbi' : b = i := hbi
        have hsa' : st.start = some a := hsa
        obtain ⟨hai, hgeta⟩ := hinv a hsa'
        refine ⟨by omega, hgeta, ?_⟩
        rw [hbi', ← hch]
        exact hchi
      | go adv2 st' =>
        rw [hstep] at h'
        have hstart := scanStep_go_start st ch rest.head? i adv2 st' hstep
        have hinv1 : ∀ a', st'.start = some a' → a' < i + 1 ∧ s[a']? = some '[' := by
          intro a' ha'
          rcases hstart with he | ⟨_, _, _, _, _, _, hch, hsome⟩
          · have hsa : st.start = some a' := by
              rw [← he]
              exact ha'
            have h2 := hinv a' hsa
            exact ⟨by omega, h2.2⟩
          · rw [hsome] at ha'
            injection ha' with haa
            subst haa
            rw [hch] at hchi
            exact ⟨by omega, hchi⟩
        cases adv2 with
        | false =>
          have h2 : ffAux f rest (i + 1) st' = some (a, b) := by simpa using h'
          exact ih rest (i + 1) st' hrest hinv1 a b h2
        | true =>
          have h2 : ffAux f rest.tail (i + 2) st' = some (a, b) := by simpa using h'
          have hdrop : rest.tail = s.drop (i + 2) := by
            rw [hrest, List.tail_drop]
          have hinv2 : ∀ a', st'.start = some a' → a' < i + 2 ∧ s[a']? = some '[' := by
            intro a' ha'
            have h3 := hinv1 a' ha'
            exact ⟨by omega, h3.2⟩
          exact ih rest.tail (i + 2) st' hdrop hinv2 a b h2

/-- C3: the scanner never treats a bracket inside a string or comment as an
array delimiter, and a returned span `(a, b)` has `'['` at `a` and `']'` at
`b` with `a < b`.  Conjuncts: (1) the returned span's shape; (2) in any
string or comment state a step never yields a span and leaves the bracket
depth and recorded start unchanged; (3) the recorded start changes only on a
`'['` read in the normal state at depth 0, recording exactly that position;
(4) a span is yielded exactly on a `']'` read in the normal state at depth 1,
returning the recorded start paired with the current position. -/
theorem C3_scanner_span (s : String) (a b : Nat)
    (h : find_first_top_level_array s = some (a, b)) :
    (a < b ∧ s.data[a]? = some '[' ∧ s.data[b]? = some ']') ∧
    (∀ st ch nxt i,
      (st.sgl = true ∨ st.dbl = true ∨ st.tpl = true ∨ st.lineC = true ∨ st.blockC = true) →
      ∃ adv2 st', scanStep st ch nxt i = ScanRes.go adv2 st' ∧
        st'.depth = st.depth ∧ st'.start = st.start) ∧
    (∀ st ch nxt i adv2 st', scanStep st ch nxt i = ScanRes.go adv2 st' →
      st'.start ≠ st.start →
      st.sgl = false ∧ st.dbl = false ∧ st.tpl = false ∧ st.lineC = false ∧
      st.blockC = false ∧ st.depth = 0 ∧ ch = '[' ∧ st'.start = some i) ∧
    (∀ st ch nxt i a' b', scanStep st ch nxt i = ScanRes.ret (a', b') →
      st.sgl = false ∧ st.dbl = false ∧ st.tpl = false ∧ st.lineC = false ∧
      st.blockC = false ∧ st.depth = 1 ∧ ch = ']' ∧ st.start = some a' ∧ b' = i) := by
  refine ⟨?_, ?_, ?_, ?_⟩
  · exact ffAux_spec s.data s.data.length s.data 0 scanInit rfl
      (by intro a0 ha0; exact Option.noConfusion ha0) a b h
  · intro st ch nxt i hlex
    exact scanStep_opaque st ch nxt i hlex
  · intro st ch nxt i adv2 st' hstep hne
    rcases scanStep_go_start st ch nxt i adv2 st' hstep with he | hc
    · exact absurd he hne
    · exact hc
  · intro st ch nxt i a' b' hstep
    exact scanStep_ret st ch nxt i a' b' hstep

/-- Witness for C3 on an adversarial input: a line comment containing `]]`
and two double-quoted strings containing `[` and `]`; the scanner still
returns the true top-level span `(11, 19)`. -/
theorem C3_scanner_span_witness :
    find_first_top_level_array "// ]]\n\"x[\" [0, \"a]\"] z" = some (11, 19) ∧
    (11 < 19 ∧ ("// ]]\n\"x[\" [0, \"a]\"] z" : String).data[11]? = some '[' ∧
      ("// ]]\n\"x[\" [0, \"a]\"] z" : String).data[19]? = some ']') :=
  ⟨by decide,
   (C3_scanner_span "// ]]\n\"x[\" [0, \"a]\"] z" 11 19 (by decide)).1⟩

/-! ### Claims C1, C7, C8: JSON values, the sort key, and `sort_markers`

Python objects produced by `json.loads` are embedded as `JValue`.  Float
values in `JValue` are finite IEEE-754 doubles; every finite double is an
integer multiple of `2 ^ (-1074)`, so a double is represented exactly as its
value scaled by `2 ^ 1074`, an integer.  The sort keys, however, range over
`PKey`, which also has `NaN` and the two infinities: `float(str)` accepts
`inf`/`infinity`/`nan` spellings, digit underscores, and literals that
overflow to infinity, so string coordinate fields can give non-finite keys.
(`NaN`/`Infinity` tokens and overflow literals in the JSON source text
itself are outside the parser model, as is the sign of `-0.0`.) -/

inductive JValue where
  | jnull
  | jbool (b : Bool)
  | jint (n : Int)
  | jfloat (m : Int)
  | jstr (s : String)
  | jarr (elems : List JValue)
  | jobj (fields : List (String × JValue))

def natLog2F : Nat → Nat → Nat
  | 0, _ => 0
  | f + 1, n => if n ≤ 1 then 0 else natLog2F f (n / 2) + 1

def upExpF : Nat → Nat → Nat → Nat
  | 0, _, _ => 0
  | f + 1, n, d => if d ≤ n then 0 else upExpF f (2 * n) d + 1

/-- Floor of the base-2 logarithm of the positive rational `n / d`. -/
def qLog2F (n d : Nat) : Int :=
  if d ≤ n then (natLog2F n (n / d) : Int) else -(upExpF d n d : Int)

/-- Round the positive rational `n / d` to the nearest double
(round-half-even), returning its value scaled by `2 ^ 1074`; `none` on
overflow to infinity.  Normal and subnormal ranges are covered. -/
def fdOfPos (n d : Nat) : Option Nat :=
  let e : Int := qLog2F n d
  let scale : Int := max (e - 52) (-1074)
  let m : Nat :=
    if scale ≤ 0 then rheDiv (n * 2 ^ (-scale).toNat) d else rheDiv n (d * 2 ^ scale.toNat)
  let M : Nat := m * 2 ^ (scale + 1074).toNat
  if M < 2 ^ 2098 then some M else none

def natLog10F : Nat → Nat → Nat
  | 0, _ => 0
  | f + 1, n => if n ≤ 9 then 0 else natLog10F f (n / 10) + 1

/-- Round the decimal value `(-1) ^ neg * c * 10 ^ E` to the nearest double,
scaled by `2 ^ 1074`.  The two guards only shortcut the extreme exponents:
a value of at least `10 ^ 309` overflows to infinity, and a positive value
below `10 ^ (-324)` (less than half the smallest subnormal) rounds to 0. -/
def fdOfDec (neg : Bool) (c : Nat) (E : Int) : Option Int :=
  if c = 0 then some 0
  else if 311 ≤ E + (natLog10F c c : Int) + 1 then none
  else if E + (natLog10F c c : Int) + 1 ≤ -324 then some 0
  else
    let nd : Nat × Nat := if 0 ≤ E then (c * 10 ^ E.toNat, 1) else (c, 10 ^ (-E).toNat)
    (fdOfPos nd.1 nd.2).map (fun M => if neg then -(M : Int) else (M : Int))

def isSpaceC (c : Char) : Bool :=
  c.toNat = 32 || c.toNat = 9 || c.toNat = 10 || c.toNat = 13 || c.toNat = 11 || c.toNat = 12

/-- A Python float as a sort key: a finite double (value scaled by
`2 ^ 1074`), an infinity, or `NaN`. -/
inductive PKey where
  | fin (M : Int)
  | pinf
  | ninf
  | nan
deriving DecidableEq

/-- Python `<` on floats: `NaN` is incomparable (every comparison with it is
`False`); the infinities bound the finite range. -/
def ltK : PKey → PKey → Bool
  | .nan, _ => false
  | _, .nan => false
  | .ninf, .ninf => false
  | .ninf, _ => true
  | _, .ninf => false
  | .pinf, _ => false
  | .fin _, .pinf => true
  | .fin a, .fin b => decide (a < b)

/-- Python `==` on floats: `nan == nan` is `False`. -/
def eqK : PKey → PKey → Bool
  | .fin a, .fin b => decide (a = b)
  | .pinf, .pinf => true
  | .ninf, .ninf => true
  | _, _ => false

/-- A run of decimal digits with PEP-515 underscores (each underscore
strictly between two digits), underscores removed.  Malformed underscores
end the run early, leaving them in the remainder, where the caller's
trailing-junk check rejects them — exactly the strings `float()` raises
on. -/
def takeDigitsU : Nat → List Char → List Char × List Char
  | 0, l => ([], l)
  | _ + 1, [] => ([], [])
  | f + 1, c :: rest =>
    if isDigitC c = false then ([], c :: rest)
    else
      match rest with
      | '_' :: d :: rest2 =>
        if isDigitC d then
          let pr := takeDigitsU f (d :: rest2)
          (c :: pr.1, pr.2)
        else ([c], rest)
      | '_' :: [] => ([c], rest)
      | _ =>
        let pr := takeDigitsU f rest
        (c :: pr.1, pr.2)

/-- The unsigned numeric part of Python `float(str)`:
`digits[.digits][exp]` or `.digits[exp]`, with underscore separators,
returned as digit value and decimal exponent. -/
def parseUFloat (l : List Char) : Option (Nat × Int) :=
  let ipr := takeDigitsU (l.length + 1) l
  let ip := ipr.1
  let r1 := ipr.2
  let pr : List Char × List Char :=
    match r1 with
    | '.' :: t => takeDigitsU (t.length + 1) t
    | _ => ([], r1)
  let fp := pr.1
  let r2 := pr.2
  if ip ++ fp = [] then none
  else
    let c := digitsVal (ip ++ fp)
    match r2 with
    | [] => some (c, -(fp.length : Int))
    | ch :: t =>
      if ch = 'e' ∨ ch = 'E' then
        let sg : Bool × List Char :=
          match t with
          | '+' :: u => (false, u)
          | '-' :: u => (true, u)
          | u => (false, u)
        let epr := takeDigitsU (sg.2.length + 1) sg.2
        if epr.1 ≠ [] ∧ epr.2 = [] then
          let ex : Int := if sg.1 then -(digitsVal epr.1 : Int) else (digitsVal epr.1 : Int)
          some (c, ex - fp.length)
        else none
      else none

def toLowerC (c : Char) : Char :=
  if 65 ≤ c.toNat ∧ c.toNat ≤ 90 then Char.ofNat (c.toNat + 32) else c

/-- Python `float(str)`: strip ASCII whitespace, optional sign, then a
case-insensitive `inf`/`infinity`/`nan` spelling or a decimal literal with
optional exponent and underscore separators, rounded to the nearest double;
a literal too large for a double gives the signed infinity, as `float()`
does.  `none` models the `ValueError` on anything else. -/
def strToFloat (s : String) : Option PKey :=
  let l := ((s.data.dropWhile isSpaceC).reverse.dropWhile isSpaceC).reverse
  let sp : Bool × List Char :=
    match l with
    | '+' :: t => (false, t)
    | '-' :: t => (true, t)
    | t => (false, t)
  let neg := sp.1
  let low := sp.2.map toLowerC
  if low = "nan".data then some .nan
  else if low = "inf".data ∨ low = "infinity".data then
    some (if neg then .ninf else .pinf)
  else
    (parseUFloat sp.2).bind (fun p =>
      match fdOfDec neg p.1 p.2 with
      | some M => some (.fin M)
      | none => some (if neg then .ninf else .pinf))

def lookupJ (k : String) : List (String × JValue) → Option JValue
  | [] => none
  | (k', v) :: rest => if k' = k then some v else lookupJ k rest

/-- `m.get(k, dflt)`. -/
def getJ (m : List (String × JValue)) (k : String) (dflt : JValue) : JValue :=
  (lookupJ k m).getD dflt

/-- Python `float(v)`, as a key: `none` models the exception path caught by
`keyfn` (`TypeError` for `None`/lists/dicts, `ValueError` for bad strings,
`OverflowError` for huge ints — note `float(int)` raises on overflow while
`float(str)` returns infinity). -/
def floatOfJ : JValue → Option PKey
  | .jbool b => some (.fin (if b then ((2 ^ 1074 : Nat) : Int) else 0))
  | .jint n => (fdOfDec (n < 0) n.natAbs 0).map .fin
  | .jfloat m => some (.fin m)
  | .jstr s => strToFloat s
  | _ => none

def keyY (m : List (String × JValue)) : PKey :=
  (floatOfJ (getJ m "y" (getJ m "lat" (.jint 0)))).getD (.fin 0)

def keyX (m : List (String × JValue)) : PKey :=
  (floatOfJ (getJ m "x" (getJ m "lon" (.jint 0)))).getD (.fin 0)

/-- `keyfn(m) = (y, x)` (scaled doubles compare exactly like the doubles
they represent).  On a non-dict element both `.get` calls raise
`AttributeError`, caught by the surrounding `try/except`, so the key is
`(0, 0)`. -/
def keyfnJ : JValue → PKey × PKey
  | .jobj m => (keyY m, keyX m)
  | _ => (.fin 0, .fin 0)

/-- Python `<=` on pairs of floats (tuple comparison: skip an `==` prefix,
then `<` at the first difference).  With a `NaN` component neither side of
a comparison holds. -/
def pairLe (p q : PKey × PKey) : Prop :=
  ltK p.1 q.1 = true ∨ (eqK p.1 q.1 = true ∧ (ltK p.2 q.2 = true ∨ eqK p.2 q.2 = true))

instance : DecidableRel pairLe := fun p q => by
  unfold pairLe
  infer_instance

def keyLe (a b : JValue) : Prop := pairLe (keyfnJ a) (keyfnJ b)

instance : DecidableRel keyLe := fun a b => by
  unfold keyLe
  infer_instance

def isObjB : JValue → Bool
  | .jobj _ => true
  | _ => false

/-- `sorted(markers, key=keyfn)`: Python's sort is stable, and on keys
without `NaN` — where the key order is a total preorder — any stable sort
is extensionally determined by the key order, so it is modelled by
insertion sort (with a `NaN` key no output is ascending at all; see the C1
counterexample).  It is total: `keyfn`'s `try/except` blocks also catch the
`AttributeError` raised by `.get` on a non-dict element, which therefore
gets the key `(0, 0)`. -/
def sort_markers (markers : List JValue) : List JValue :=
  List.insertionSort keyLe markers

def hasSS : List Char → Bool
  | '*' :: '/' :: _ => true
  | _ :: t => hasSS t
  | [] => false

def dropSS : List Char → List Char
  | '*' :: '/' :: t => t
  | _ :: t => dropSS t
  | [] => []

def rmLineC : Nat → List Char → List Char
  | 0, l => l
  | _ + 1, [] => []
  | f + 1, c1 :: rest =>
    if c1 = '/' then
      match rest with
      | c2 :: rest2 =>
        if c2 = '/' ∧ rest2.contains '\n' then rmLineC f (rest2.dropWhile (· ≠ '\n'))
        else c1 :: rmLineC f rest
      | [] => [c1]
    else c1 :: rmLineC f rest

def rmBlockC : Nat → List Char → List Char
  | 0, l => l
  | _ + 1, [] => []
  | f + 1, c1 :: rest =>
    if c1 = '/' then
      match rest with
      | '*' :: rest2 =>
        if hasSS rest2 then rmBlockC f (dropSS rest2) else c1 :: rmBlockC f rest
      | _ => c1 :: rmBlockC f rest
    else c1 :: rmBlockC f rest

def sqBodyF : Nat → List Char → List Char → Option (List Char × List Char)
  | 0, _, _ => none
  | f + 1, acc, l =>
    let run := l.takeWhile (fun c => ¬ (c = sqChar ∨ c = '\\'))
    let r := l.dropWhile (fun c => ¬ (c = sqChar ∨ c = '\\'))
    match r with
    | [] => none
    | c :: t =>
      if c = sqChar then some (acc ++ run, t)
      else
        match t with
        | e :: t2 => if e ≠ '\n' then sqBodyF f (acc ++ run ++ [c, e]) t2 else none
        | [] => none

def escDq : List Char → List Char
  | [] => []
  | c :: t => if c = '"' then '\\' :: '"' :: escDq t else c :: escDq t

def sqToDq : Nat → List Char → List Char
  | 0, l => l
  | _ + 1, [] => []
  | f + 1, c :: rest =>
    if c = sqChar then
      match sqBodyF (rest.length + 1) [] rest with
      | some (inner, t) => '"' :: (escDq inner ++ '"' :: sqToDq f t)
      | none => c :: sqToDq f rest
    else c :: sqToDq f rest

def rmTC : Nat → List Char → List Char
  | 0, l => l
  | _ + 1, [] => []
  | f + 1, c :: rest =>
    if c = ',' then
      match rest.dropWhile isSpaceC with
      | b :: t2 =>
        if b = ']' ∨ b = '}' then rmTC f (b :: t2) else c :: rmTC f rest
      | [] => c :: rmTC f rest
    else c :: rmTC f rest

def clean_js_array_text (s : String) : String :=
  let l1 := rmLineC (s.data.length + 1) s.data
  let l2 := rmBlockC (l1.length + 1) l1
  let l3 := sqToDq (l2.length + 1) l2
  ⟨rmTC (l3.length + 1) l3⟩

/-! ### `json.loads`: strict JSON parser

Whitespace is `' '`, `'\t'`, `'\n'`, `'\r'`; strings are double-quoted with
the JSON escapes (`\uXXXX` including valid surrogate pairs; lone surrogates
are outside the model); numbers follow the strict JSON grammar, integers
kept exact and decimal/exponent literals rounded to doubles; duplicate
object keys keep the first key position with the last value, as for a
Python dict. -/

def isJWS (c : Char) : Bool := c = ' ' || c = '\t' || c = '\n' || c = '\r'

def skipWS (l : List Char) : List Char := l.dropWhile isJWS

def isHexC (c : Char) : Bool :=
  isDigitC c || (97 ≤ c.toNat && c.toNat ≤ 102) || (65 ≤ c.toNat && c.toNat ≤ 70)

def jstrF : Nat → List Char → List Char → Option (List Char × List Char)
  | 0, _, _ => none
  | f + 1, acc, l =>
    match l with
    | [] => none
    | '"' :: t => some (acc, t)
    | '\\' :: e :: t =>
      if e = '"' then jstrF f (acc ++ ['"']) t
      else if e = '\\' then jstrF f (acc ++ ['\\']) t
      else if e = '/' then jstrF f (acc ++ ['/']) t
      else if e = 'b' then jstrF f (acc ++ [Char.ofNat 8]) t
      else if e = 'f' then jstrF f (acc ++ [Char.ofNat 12]) t
      else if e = 'n' then jstrF f (acc ++ ['\n']) t
      else if e = 'r' then jstrF f (acc ++ [Char.ofNat 13]) t
      else if e = 't' then jstrF f (acc ++ ['\t']) t
      else if e = 'u' then
        match t with
        | h1 :: h2 :: h3 :: h4 :: t2 =>
          if isHexC h1 && isHexC h2 && isHexC h3 && isHexC h4 then
            let v := hexVal [h1, h2, h3, h4]
            if v < 55296 ∨ 57343 < v then jstrF f (acc ++ [Char.ofNat v]) t2
            else if v ≤ 56319 then
              match t2 with
              | '\\' :: 'u' :: g1 :: g2 :: g3 :: g4 :: t3 =>
                if isHexC g1 && isHexC g2 && isHexC g3 && isHexC g4 then
                  let w := hexVal [g1, g2, g3, g4]
                  if 56320 ≤ w ∧ w ≤ 57343 then
                    jstrF f (acc ++ [Char.ofNat (65536 + (v - 55296) * 1024 + (w - 56320))]) t3
                  else none
                else none
              | _ => none
            else none
          else none
        | _ => none
      else none
    | c :: t => if c.toNat < 32 then none else jstrF f (acc ++ [c]) t

/-- Number literal: strict JSON grammar; exact `int` when there is no
fraction and no exponent, otherwise a double. -/
def jnumParse (l : List Char) : Option (JValue × List Char) :=
  let sp : Bool × List Char := match l with | '-' :: t => (true, t) | t => (false, t)
  let neg := sp.1
  let ipr : List Char × List Char :=
    match sp.2 with
    | '0' :: t => (['0'], t)
    | c :: t => if isDigitC c ∧ c ≠ '0' then (c :: t.takeWhile isDigitC, t.dropWhile isDigitC)
                else ([], c :: t)
    | [] => ([], [])
  if ipr.1 = [] then none
  else
    let fpr : List Char × List Char :=
      match ipr.2 with
      | '.' :: t => if t.takeWhile isDigitC ≠ [] then (t.takeWhile isDigitC, t.dropWhile isDigitC)
                    else ([], ipr.2)
      | _ => ([], ipr.2)
    let epr : Option Int × List Char :=
      match fpr.2 with
      | c :: t =>
        if c = 'e' ∨ c = 'E' then
          let sg : Bool × List Char :=
            match t with
            | '+' :: u => (false, u)
            | '-' :: u => (true, u)
            | u => (false, u)
          if sg.2.takeWhile isDigitC ≠ [] then
            (some (if sg.1 then -(digitsVal (sg.2.takeWhile isDigitC) : Int)
                   else (digitsVal (sg.2.takeWhile isDigitC) : Int)),
             sg.2.dropWhile isDigitC)
          else (none, fpr.2)
        else (none, fpr.2)
      | [] => (none, fpr.2)
    if fpr.1 = [] ∧ epr.1 = none then
      some (.jint (if neg then -(digitsVal ipr.1 : Int) else (digitsVal ipr.1 : Int)), ipr.2)
    else
      (fdOfDec neg (digitsVal (ipr.1 ++ fpr.1)) (epr.1.getD 0 - fpr.1.length)).map
        (fun M => (.jfloat M, epr.2))

/-- Python dict insertion: an existing key keeps its position and takes the
new value; a new key is appended. -/
def objInsert (k : String) (v : JValue) (l : List (String × JValue)) : List (String × JValue) :=
  if l.any (fun p => p.1 == k) then l.map (fun p => if p.1 = k then (k, v) else p)
  else l ++ [(k, v)]

mutual

def jvalF : Nat → List Char → Option (JValue × List Char)
  | 0, _ => none
  | f + 1, l =>
    match l with
    | '"' :: t => (jstrF (t.length + 1) [] t).map (fun p => (.jstr ⟨p.1⟩, p.2))
    | '{' :: t =>
      (match skipWS t with
       | '}' :: t2 => some (.jobj [], t2)
       | t' => (jobjLoopF f t' []).map (fun p => (.jobj p.1, p.2)))
    | '[' :: t =>
      (match skipWS t with
       | ']' :: t2 => some (.jarr [], t2)
       | t' => (jarrLoopF f t' []).map (fun p => (.jarr p.1, p.2)))
    | 't' :: 'r' :: 'u' :: 'e' :: t => some (.jbool true, t)
    | 'f' :: 'a' :: 'l' :: 's' :: 'e' :: t => some (.jbool false, t)
    | 'n' :: 'u' :: 'l' :: 'l' :: t => some (.jnull, t)
    | _ => jnumParse l

def jarrLoopF : Nat → List Char → List JValue → Option (List JValue × List Char)
  | 0, _, _ => none
  | f + 1, l, acc =>
    (jvalF f l).bind (fun p =>
      match skipWS p.2 with
      | ',' :: t => jarrLoopF f (skipWS t) (acc ++ [p.1])
      | ']' :: t => some (acc ++ [p.1], t)
      | _ => none)

def jobjLoopF : Nat → List Char → List (String × JValue) → Option (List (String × JValue) × List Char)
  | 0, _, _ => none
  | f + 1, l, acc =>
    match l with
    | '"' :: t =>
      (jstrF (t.length + 1) [] t).bind (fun kp =>
        match skipWS kp.2 with
        | ':' :: t2 =>
          (jvalF f (skipWS t2)).bind (fun vp =>
            match skipWS vp.2 with
            | ',' :: t3 => jobjLoopF f (skipWS t3) (objInsert ⟨kp.1⟩ vp.1 acc)
            | '}' :: t3 => some (objInsert ⟨kp.1⟩ vp.1 acc, t3)
            | _ => none)
        | _ => none)
    | _ => none

end

/-- `json.loads`. -/
def json_loads (s : String) : Option JValue :=
  match jvalF (2 * s.data.length + 2) (skipWS s.data) with
  | some (v, r) => if skipWS r = [] then some v else none
  | none => none

/-! ### `json.dumps(..., indent=4, ensure_ascii=False)`

Floats are rendered with Python `repr`: the shortest decimal digit string
(1 to 17 significant digits, half-even rounded) that round-trips to the same
double, in fixed notation for decimal exponents in `[-4, 16)` and scientific
notation otherwise, integral fixed values getting a trailing `.0`. -/

def upExp10F : Nat → Nat → Nat → Nat
  | 0, _, _ => 0
  | f + 1, n, d => if d ≤ n then 0 else upExp10F f (10 * n) d + 1

/-- Floor of the base-10 logarithm of the positive rational `n / d`. -/
def qLog10F (n d : Nat) : Int :=
  if d ≤ n then (natLog10F n (n / d) : Int) else -(upExp10F d n d : Int)

/-- Round the positive rational `n / d` to `k` significant decimal digits
(half-even): mantissa and decimal exponent of the leading digit. -/
def sigRound (n d k : Nat) : Nat × Int :=
  let E := qLog10F n d
  let t : Int := (k : Int) - 1 - E
  let m := if 0 ≤ t then rheDiv (n * 10 ^ t.toNat) d else rheDiv n (d * 10 ^ (-t).toNat)
  if m = 10 ^ k then (10 ^ (k - 1), E + 1) else (m, E)

def srLoop : Nat → Nat → Nat → Nat → Nat × Int
  | 0, k, n, d => sigRound n d k
  | f + 1, k, n, d =>
    let pr := sigRound n d k
    if fdOfDec false pr.1 (pr.2 - (k : Int) + 1) = some (n : Int) then pr
    else srLoop f (k + 1) n d

def intStr (n : Int) : String :=
  if n < 0 then "-" ++ natStr n.natAbs else natStr n.natAbs

/-- `repr` of the double with scaled value `M`. -/
def pyFloatRepr (M : Int) : String :=
  if M = 0 then "0.0"
  else
    let n := M.natAbs
    let pr := srLoop 17 1 n (2 ^ 1074)
    let ds := (natStr pr.1).data
    let k := ds.length
    let E := pr.2
    let body :=
      if -4 ≤ E ∧ E < 16 then
        if (k : Int) - 1 ≤ E then
          (⟨ds ++ List.replicate (E - (k : Int) + 1).toNat '0'⟩ : String) ++ ".0"
        else if 0 ≤ E then
          (⟨ds.take (E.toNat + 1)⟩ : String) ++ "." ++ (⟨ds.drop (E.toNat + 1)⟩ : String)
        else
          "0." ++ (⟨List.replicate (-E - 1).toNat '0'⟩ : String) ++ (⟨ds⟩ : String)
      else
        let mant : String :=
          if k = 1 then ⟨ds⟩ else (⟨ds.take 1⟩ : String) ++ "." ++ (⟨ds.drop 1⟩ : String)
        let esign := if E < 0 then "-" else "+"
        let eabs := natStr E.natAbs
        let epad := if E.natAbs < 10 then "0" ++ eabs else eabs
        mant ++ "e" ++ esign ++ epad
    if M < 0 then "-" ++ body else body

def jsonEscChar (c : Char) : List Char :=
  if c = '\\' then ['\\', '\\']
  else if c = '"' then ['\\', '"']
  else if c.toNat = 8 then ['\\', 'b']
  else if c.toNat = 12 then ['\\', 'f']
  else if c = '\n' then ['\\', 'n']
  else if c.toNat = 13 then ['\\', 'r']
  else if c = '\t' then ['\\', 't']
  else if c.toNat < 32 then
    ['\\', 'u', '0', '0', hexDigitChar (c.toNat / 16), hexDigitChar (c.toNat % 16)]
  else [c]

def jsonQuote (s : String) : String :=
  "\"" ++ (⟨(s.data.map jsonEscChar).flatten⟩ : String) ++ "\""

def indentS (lv : Nat) : String := ⟨List.replicate (4 * lv) ' '⟩

mutual

def jdumpF : Nat → Nat → JValue → String
  | 0, _, _ => ""
  | f + 1, lv, v =>
    match v with
    | .jnull => "null"
    | .jbool b => if b then "true" else "false"
    | .jint n => intStr n
    | .jfloat M => pyFloatRepr M
    | .jstr s => jsonQuote s
    | .jarr [] => "[]"
    | .jarr (x :: xs) =>
      "[\n" ++ jdumpItemsF f (lv + 1) (x :: xs) ++ "\n" ++ indentS lv ++ "]"
    | .jobj [] => "\x7b\x7d"
    | .jobj (p :: ps) =>
      "\x7b\n" ++ jdumpFieldsF f (lv + 1) (p :: ps) ++ "\n" ++ indentS lv ++ "\x7d"

def jdumpItemsF : Nat → Nat → List JValue → String
  | 0, _, _ => ""
  | _ + 1, _, [] => ""
  | f + 1, lv, [x] => indentS lv ++ jdumpF f lv x
  | f + 1, lv, x :: xs => indentS lv ++ jdumpF f lv x ++ ",\n" ++ jdumpItemsF f lv xs

def jdumpFieldsF : Nat → Nat → List (String × JValue) → String
  | 0, _, _ => ""
  | _ + 1, _, [] => ""
  | f + 1, lv, [p] => indentS lv ++ jsonQuote p.1 ++ ": " ++ jdumpF f lv p.2
  | f + 1, lv, p :: ps =>
    indentS lv ++ jsonQuote p.1 ++ ": " ++ jdumpF f lv p.2 ++ ",\n" ++ jdumpFieldsF f lv ps

end

/-- Numeric value (scaled by `2 ^ 1074`) for Python cross-type numeric
equality: `True == 1 == 1.0`. -/
def jnumS : JValue → Option Int
  | .jbool b => some (if b then ((2 ^ 1074 : Nat) : Int) else 0)
  | .jint n => some (n * ((2 ^ 1074 : Nat) : Int))
  | .jfloat m => some m
  | _ => none

mutual

/-- Python `==` on parsed JSON values (fuel-based; dict comparison is
order-insensitive, assuming the unique keys `json.loads` produces). -/
def jeqBF : Nat → JValue → JValue → Bool
  | 0, _, _ => false
  | f + 1, x, y =>
    match x, y with
    | .jstr a, .jstr b => a == b
    | .jnull, .jnull => true
    | .jarr a, .jarr b => jeqArrF f a b
    | .jobj a, .jobj b => a.length == b.length && jeqFieldsF f a b
    | x, y =>
      match jnumS x, jnumS y with
      | some a, some b => a == b
      | _, _ => false

def jeqArrF : Nat → List JValue → List JValue → Bool
  | 0, _, _ => false
  | _ + 1, [], [] => true
  | f + 1, x :: xs, y :: ys => jeqBF f x y && jeqArrF f xs ys
  | _ + 1, _, _ => false

def jeqFieldsF : Nat → List (String × JValue) → List (String × JValue) → Bool
  | 0, _, _ => false
  | _ + 1, [], _ => true
  | f + 1, p :: rest, b =>
    (match lookupJ p.1 b with
     | some w => jeqBF f p.2 w
     | none => false) && jeqFieldsF f rest b

end

/-- Outcomes of `process_file` (the printed tag / return value). -/
inductive Outcome where
  | noArray
  | parseError
  | notList
  | emptyArray
  | notObjects
  | noChange
  | willUpdate
  | updated
deriving DecidableEq

/-- A write performed by `process_file`: target (`path + '.bak'` or `path`)
and content. -/
inductive WTgt where
  | bak
  | main
deriving DecidableEq

/-- `process_file(path, apply)` on a file whose content is `txt`, as a pure
function: the outcome and the file writes in order. -/
def process_file (txt : String) (apply : Bool) : Outcome × List (WTgt × String) :=
  match find_first_top_level_array txt with
  | none => (.noArray, [])
  | some (start, en) =>
    let array_text : String := ⟨(txt.data.drop start).take (en + 1 - start)⟩
    let cleaned := clean_js_array_text array_text
    match json_loads cleaned with
    | none => (.parseError, [])
    | some data =>
      match data with
      | .jarr [] => (.emptyArray, [])
      | .jarr (e0 :: rest) =>
        if isObjB e0 = false then (.notObjects, [])
        else
          let sorted_data := sort_markers (e0 :: rest)
          if jeqArrF (cleaned.data.length + 2) sorted_data (e0 :: rest) then (.noChange, [])
          else
            let new_json := jdumpF (cleaned.data.length + 2) 0 (.jarr sorted_data)
            let new_txt : String := ⟨txt.data.take start ++ new_json.data ++ txt.data.drop (en + 1)⟩
            if apply then (.updated, [(.bak, txt), (.main, new_txt)])
            else (.willUpdate, [])
      | _ => (.notList, [])

theorem process_file_writes (txt : String) (apply : Bool) :
    (process_file txt apply).2 = [] ∨ (process_file txt apply).1 = .updated := by
  unfold process_file
  rcases find_first_top_level_array txt with _ | ⟨start, en⟩
  · exact Or.inl rfl
  · dsimp only
    rcases json_loads (clean_js_array_text ⟨(txt.data.drop start).take (en + 1 - start)⟩) with
      _ | data
    · exact Or.inl rfl
    · dsimp only
      rcases data with _ | b | n | m | s | elems | flds
      · exact Or.inl rfl
      · exact Or.inl rfl
      · exact Or.inl rfl
      · exact Or.inl rfl
      · exact Or.inl rfl
      · rcases elems with _ | ⟨e0, rest⟩
        · exact Or.inl rfl
        · dsimp only
          by_cases hobj : isObjB e0 = false
          · rw [if_pos hobj]
            exact Or.inl rfl
          · rw [if_neg hobj]
            by_cases heq : jeqArrF
                ((clean_js_array_text ⟨(txt.data.drop start).take (en + 1 - start)⟩).data.length + 2)
                (sort_markers (e0 :: rest)) (e0 :: rest) = true
            · rw [if_pos heq]
              exact Or.inl rfl
            · rw [if_neg heq]
              by_cases happ : apply = true
              · rw [if_pos happ]
                exact Or.inr rfl
              · rw [if_neg happ]
                exact Or.inl rfl
      · exact Or.inl rfl

set_option maxRecDepth 400000 in
/-- C7: whenever `process_file` does not reach the rewrite step (no
top-level array, parse failure after cleanup, non-list value, empty array,
non-dict first element, already sorted — and also the dry run), no write at
all is performed: the file is untouched and no `.bak` is created; in
particular `[1,2,3]` is skipped as `notObjects` with no writes. -/
theorem C7_skip_outcomes_no_write (txt : String) (apply : Bool)
    (h : (process_file txt apply).1 ≠ Outcome.updated) :
    (process_file txt apply).2 = [] ∧
    process_file "[1,2,3]" true = (Outcome.notObjects, []) :=
  ⟨(process_file_writes txt apply).resolve_right h, rfl⟩

set_option maxRecDepth 400000 in
/-- Witness for C7 at a file whose array is already sorted. -/
theorem C7_skip_outcomes_no_write_witness :
    (process_file "m = [\x7b\"y\": 1\x7d, \x7b\"y\": 2\x7d];" true).1 ≠ Outcome.updated ∧
    (process_file "m = [\x7b\"y\": 1\x7d, \x7b\"y\": 2\x7d];" true).2 = [] ∧
    process_file "[1,2,3]" true = (Outcome.notObjects, []) := by
  have he : process_file "m = [\x7b\"y\": 1\x7d, \x7b\"y\": 2\x7d];" true = (Outcome.noChange, []) := rfl
  have h1 : (process_file "m = [\x7b\"y\": 1\x7d, \x7b\"y\": 2\x7d];" true).1 ≠ Outcome.updated := by
    rw [he]
    decide
  exact ⟨h1, C7_skip_outcomes_no_write "m = [\x7b\"y\": 1\x7d, \x7b\"y\": 2\x7d];" true h1⟩

/-- C8: an apply-mode rewrite performs exactly two writes, in order: first
the `.bak` sibling receives the original content byte-for-byte, then the
file receives the original text with only the located array span replaced by
the indent-4 serialization of the sorted array — every character outside the
span (the prefix up to `start` and the suffix after `end`) is preserved
verbatim. -/
theorem C8_apply_writes_bak_then_splice (txt : String)
    (h : (process_file txt true).1 = Outcome.updated) :
    ∃ start en elems,
      find_first_top_level_array txt = some (start, en) ∧
      json_loads (clean_js_array_text ⟨(txt.data.drop start).take (en + 1 - start)⟩)
        = some (.jarr elems) ∧
      process_file txt true
        = (Outcome.updated,
           [(WTgt.bak, txt),
            (WTgt.main,
             ⟨txt.data.take start
              ++ (jdumpF
                    ((clean_js_array_text ⟨(txt.data.drop start).take (en + 1 - start)⟩).data.length + 2)
                    0 (.jarr (sort_markers elems))).data
              ++ txt.data.drop (en + 1)⟩)]) := by
  unfold process_file at h ⊢
  cases hfind : find_first_top_level_array txt with
  | none =>
    rw [hfind] at h
    dsimp only at h
    exact Outcome.noConfusion h
  | some pr =>
    obtain ⟨start, en⟩ := pr
    rw [hfind] at h
    dsimp only at h ⊢
    cases hparse : json_loads (clean_js_array_text ⟨(txt.data.drop start).take (en + 1 - start)⟩) with
    | none =>
      rw [hparse] at h
      dsimp only at h
      exact Outcome.noConfusion h
    | some data =>
      rw [hparse] at h
      dsimp only at h ⊢
      cases data with
      | jarr elems =>
        cases elems with
        | nil =>
          dsimp only at h
          exact Outcome.noConfusion h
        | cons e0 rest =>
          dsimp only at h ⊢
          by_cases hobj : isObjB e0 = false
          · rw [if_pos hobj] at h
            exact Outcome.noConfusion h
          · rw [if_neg hobj] at h ⊢
            by_cases heq : jeqArrF
                ((clean_js_array_text ⟨(txt.data.drop start).take (en + 1 - start)⟩).data.length + 2)
                (sort_markers (e0 :: rest)) (e0 :: rest) = true
            · rw [if_pos heq] at h
              exact Outcome.noConfusion h
            · rw [if_neg heq] at h ⊢
              exact ⟨start, en, e0 :: rest, rfl, hparse, rfl⟩
      | jnull =>
        dsimp only at h
        exact Outcome.noConfusion h
      | jbool b =>
        dsimp only at h
        exact Outcome.noConfusion h
      | jint n =>
        dsimp only at h
        exact Outcome.noConfusion h
      | jfloat m =>
        dsimp only at h
        exact Outcome.noConfusion h
      | jstr s =>
        dsimp only at h
        exact Outcome.noConfusion h
      | jobj flds =>
        dsimp only at h
        exact Outcome.noConfusion h

set_option maxRecDepth 400000 in
/-- Witness for C8: an apply-mode run on an unsorted marker array with a
trailing comma cleaned away writes the backup with the original text and
then the spliced rewrite. -/
theorem C8_apply_writes_bak_then_splice_witness :
    process_file "m = [\x7b\"y\": 2, \"x\": 1\x7d, \x7b\"y\": 1, \"x\": 3\x7d,];" true
      = (Outcome.updated,
         [(WTgt.bak, "m = [\x7b\"y\": 2, \"x\": 1\x7d, \x7b\"y\": 1, \"x\": 3\x7d,];"),
          (WTgt.main, "m = [\n    \x7b\n        \"y\": 1,\n        \"x\": 3\n    \x7d,\n    \x7b\n        \"y\": 2,\n        \"x\": 1\n    \x7d\n];")]) ∧
    (∃ start en elems,
      find_first_top_level_array "m = [\x7b\"y\": 2, \"x\": 1\x7d, \x7b\"y\": 1, \"x\": 3\x7d,];" = some (start, en) ∧
      json_loads (clean_js_array_text
          ⟨(("m = [\x7b\"y\": 2, \"x\": 1\x7d, \x7b\"y\": 1, \"x\": 3\x7d,];" : String).data.drop start).take (en + 1 - start)⟩)
        = some (.jarr elems) ∧
      process_file "m = [\x7b\"y\": 2, \"x\": 1\x7d, \x7b\"y\": 1, \"x\": 3\x7d,];" true
        = (Outcome.updated,
           [(WTgt.bak, "m = [\x7b\"y\": 2, \"x\": 1\x7d, \x7b\"y\": 1, \"x\": 3\x7d,];"),
            (WTgt.main,
             ⟨("m = [\x7b\"y\": 2, \"x\": 1\x7d, \x7b\"y\": 1, \"x\": 3\x7d,];" : String).data.take start
              ++ (jdumpF
                    ((clean_js_array_text
                        ⟨(("m = [\x7b\"y\": 2, \"x\": 1\x7d, \x7b\"y\": 1, \"x\": 3\x7d,];" : String).data.drop start).take (en + 1 - start)⟩).data.length + 2)
                    0 (.jarr (sort_markers elems))).data
              ++ ("m = [\x7b\"y\": 2, \"x\": 1\x7d, \x7b\"y\": 1, \"x\": 3\x7d,];" : String).data.drop (en + 1)⟩)])) :=
  ⟨rfl, C8_apply_writes_bak_then_splice "m = [\x7b\"y\": 2, \"x\": 1\x7d, \x7b\"y\": 1, \"x\": 3\x7d,];" rfl⟩
